import Mathlib

/-!
Verification of the bloom-filter block store and merge engine of this
repository (package `pkg/storage/bloom/v1` and its collaborators).

The implementation of the core (builder, block, querier, merge builder,
bloom-gateway querier) is not present under `src/`; only its test files
are.  Following the spec (`spec.md`), the missing code is modelled here,
definition by definition, from the spec's words; every such definition
carries a doc comment starting with `Modelled from the spec:`.  The
`AsyncStorage` namespace at the end embeds `pkg/storage/async_store.go`,
which is present in the source tree, and is translated from that file.
-/

namespace LokiBloom

/-! ## Byte-level preliminaries -/

/-- Extract `len` bytes starting at absolute offset `off`. -/
def extract (bs : List Nat) (off len : Nat) : List Nat :=
  (bs.drop off).take len

theorem extract_at (a b c : List Nat) :
    extract (a ++ b ++ c) a.length b.length = b := by
  unfold extract
  rw [List.append_assoc, List.drop_append_of_le_length (le_refl a.length),
    List.drop_length, List.nil_append, List.take_append_of_le_length (le_refl b.length),
    List.take_length]

theorem extract_append_right (a b : List Nat) (off len : Nat)
    (h : a.length ≤ off) :
    extract (a ++ b) off len = extract b (off - a.length) len := by
  unfold extract
  rw [List.drop_append_eq_append_drop]
  have : a.drop off = [] := List.drop_eq_nil_of_le h
  rw [this, List.nil_append]

/-- Little-endian fixed-width encoding: `w` bytes of `n`. -/
def leN : Nat → Nat → List Nat
  | 0, _ => []
  | w + 1, n => n % 256 :: leN w (n / 256)

/-- Little-endian decoding of a byte list. -/
def decodeLe : List Nat → Nat
  | [] => 0
  | b :: rest => b + 256 * decodeLe rest

theorem leN_length (w n : Nat) : (leN w n).length = w := by
  induction w generalizing n with
  | zero => rfl
  | succ w ih => simp [leN, ih]

theorem decodeLe_leN (w n : Nat) : decodeLe (leN w n) = n % 256 ^ w := by
  induction w generalizing n with
  | zero => simp [leN, decodeLe, Nat.mod_one]
  | succ w ih =>
    simp only [leN, decodeLe, ih]
    rw [← Nat.mod_mul_right_div_self]
    conv_lhs => rw [show n % 256 = n % (256 * 256 ^ w) % 256 from
      (Nat.mod_mod_of_dvd n (dvd_mul_right 256 (256 ^ w))).symm]
    rw [Nat.mod_add_div, pow_succ, mul_comm]

theorem decodeLe_leN_of_lt {w n : Nat} (h : n < 256 ^ w) :
    decodeLe (leN w n) = n := by
  rw [decodeLe_leN, Nat.mod_eq_of_lt h]

/-- Unsigned LEB128 emission, with explicit fuel so that the definition is
structurally recursive and kernel-evaluable. -/
def leb128Aux : Nat → Nat → List Nat
  | 0, _ => []
  | fuel + 1, n => if n < 128 then [n] else (n % 128 + 128) :: leb128Aux fuel (n / 128)

/-- Fuel that always suffices for `leb128Aux`: ten bytes cover any value
below `2 ^ 70`; the fallback branch is never reached for machine integers. -/
def lebFuel (n : Nat) : Nat := if n < 2 ^ 70 then 10 else n + 1

/-- Modelled from the spec: variable-length integers of the on-disk format
use unsigned LEB128 (spec §6); the emitting side, absent from `src/`. -/
def leb128 (n : Nat) : List Nat := leb128Aux (lebFuel n) n

/-- Modelled from the spec: LEB128 decoding as performed by the lazy reader,
absent from `src/`.  Returns the value and the unconsumed bytes. -/
def lebParse : List Nat → Option (Nat × List Nat)
  | [] => none
  | b :: rest =>
    if b < 128 then some (b, rest)
    else
      match lebParse rest with
      | none => none
      | some (v, r) => some (b - 128 + 128 * v, r)

theorem lebParse_leb128Aux (fuel : Nat) :
    ∀ n t, 0 < fuel → n < 128 ^ fuel → lebParse (leb128Aux fuel n ++ t) = some (n, t) := by
  induction fuel with
  | zero => intro n t hf _; exact absurd hf (lt_irrefl 0)
  | succ fuel ih =>
    intro n t _ h
    by_cases hn : n < 128
    · simp [leb128Aux, hn, lebParse]
    · have h128 : 128 ≤ n := Nat.le_of_not_lt hn
      have hb : ¬ n % 128 + 128 < 128 := by omega
      have hdiv : n / 128 < 128 ^ fuel := by
        rw [Nat.div_lt_iff_lt_mul (by norm_num : 0 < 128)]
        calc n < 128 ^ (fuel + 1) := h
        _ = 128 ^ fuel * 128 := by rw [pow_succ]
      have hf : 0 < fuel := by
        rcases Nat.eq_zero_or_pos fuel with h0 | h0
        · subst h0; simp at hdiv; omega
        · exact h0
      simp only [leb128Aux, hn, if_false, List.cons_append, lebParse, hb, if_false,
        ih (n / 128) t hf hdiv]
      have heq : n % 128 + 128 - 128 + 128 * (n / 128) = n := by omega
      rw [heq]

theorem lt_pow_lebFuel (n : Nat) : n < 128 ^ lebFuel n := by
  unfold lebFuel
  by_cases h : n < 2 ^ 70
  · simp only [h, if_true]
    calc n < 2 ^ 70 := h
    _ ≤ 128 ^ 10 := by norm_num
  · simp only [h, if_false]
    calc n < 2 ^ n := Nat.lt_two_pow n
    _ ≤ 2 ^ (7 * (n + 1)) := Nat.pow_le_pow_right (by norm_num) (by omega)
    _ = 128 ^ (n + 1) := by rw [pow_mul]; norm_num

theorem lebFuel_pos (n : Nat) : 0 < lebFuel n := by
  unfold lebFuel
  split <;> omega

theorem lebParse_leb128 (n : Nat) (t : List Nat) :
    lebParse (leb128 n ++ t) = some (n, t) :=
  lebParse_leb128Aux (lebFuel n) n t (lebFuel_pos n) (lt_pow_lebFuel n)

theorem leb128_ne_nil (n : Nat) : leb128 n ≠ [] := by
  intro h
  have := lebParse_leb128 n []
  rw [h] at this
  simp [lebParse] at this

/-! ## CRC32 (Castagnoli), bitwise reflected implementation -/

/-- Reflected Castagnoli polynomial. -/
def crcPoly : Nat := 0x82F63B78

/-- One bit step of the reflected CRC32C update. -/
def crcStep (c : Nat) : Nat :=
  if c % 2 = 1 then (c / 2) ^^^ crcPoly else c / 2

def crcSteps : Nat → Nat → Nat
  | 0, c => c
  | k + 1, c => crcSteps k (crcStep c)

/-- Modelled from the spec: per-byte update of the CRC32 (Castagnoli)
checksum used for page checksums and the block digest; the implementation
is absent from `src/`. -/
def crcByte (c b : Nat) : Nat := crcSteps 8 (c ^^^ b % 256)

/-- Forces a `Nat` argument to a literal before applying `f`, keeping
kernel evaluation strict. -/
def natForce {α : Type} (f : Nat → α) : Nat → α
  | 0 => f 0
  | n + 1 => f (n + 1)

theorem natForce_eq {α : Type} (f : Nat → α) (n : Nat) : natForce f n = f n := by
  cases n with
  | zero => rfl
  | succ m => rfl

/-- Byte-wise CRC fold; the forced register keeps kernel evaluation
strict, one literal per byte. -/
def crcFold : Nat → List Nat → Nat
  | c, [] => c
  | c, b :: bs => natForce (fun c2 => crcFold c2 bs) (crcByte c b)

theorem crcFold_eq_foldl : ∀ (bs : List Nat) (c : Nat),
    crcFold c bs = bs.foldl crcByte c := by
  intro bs
  induction bs with
  | nil => intro c; rfl
  | cons b rest ih =>
    intro c
    rw [List.foldl_cons, ← ih]
    exact natForce_eq (fun c2 => crcFold c2 rest) (crcByte c b)

/-- Modelled from the spec: CRC32 (Castagnoli) over a byte sequence
(spec §4.3, §4.5). -/
def crc32c (bs : List Nat) : Nat :=
  (crcFold 0xFFFFFFFF bs) ^^^ 0xFFFFFFFF

theorem crcStep_lt {c : Nat} (h : c < 2 ^ 32) : crcStep c < 2 ^ 32 := by
  unfold crcStep
  have hdiv : c / 2 < 2 ^ 32 := lt_of_le_of_lt (Nat.div_le_self c 2) h
  by_cases hb : c % 2 = 1
  · simp only [hb, if_true]
    exact Nat.xor_lt_two_pow hdiv (by unfold crcPoly; norm_num)
  · simp only [hb, if_false]
    exact hdiv

theorem crcSteps_lt {k c : Nat} (h : c < 2 ^ 32) : crcSteps k c < 2 ^ 32 := by
  induction k generalizing c with
  | zero => exact h
  | succ k ih => exact ih (crcStep_lt h)

theorem crcByte_lt {c : Nat} (b : Nat) (h : c < 2 ^ 32) : crcByte c b < 2 ^ 32 := by
  unfold crcByte
  exact crcSteps_lt (Nat.xor_lt_two_pow h
    (lt_of_lt_of_le (Nat.mod_lt b (by norm_num)) (by norm_num)))

theorem foldl_crcByte_lt (bs : List Nat) :
    ∀ c, c < 2 ^ 32 → bs.foldl crcByte c < 2 ^ 32 := by
  induction bs with
  | nil => intro c h; exact h
  | cons b rest ih => intro c h; exact ih _ (crcByte_lt b h)

theorem crc32c_lt (bs : List Nat) : crc32c bs < 2 ^ 32 := by
  unfold crc32c
  rw [crcFold_eq_foldl]
  exact Nat.xor_lt_two_pow (foldl_crcByte_lt bs _ (by norm_num)) (by norm_num)

/-! ## Data model (spec §3) -/

/-- 64-bit series identifier (spec §3); represented as `Nat`, with the
`uint64` bound `< 2 ^ 64` imposed where the on-disk format stores it. -/
abbrev Fingerprint := Nat

/-- A token handed to `Bloom.add` / `Bloom.test`; a byte string. -/
abbrev Token := List Nat

/-- Modelled from the spec: chunk reference
`(from_ms, through_ms, checksum32)` of the owning series (spec §3). -/
structure ChunkRef where
  fromMs : Nat
  throughMs : Nat
  checksum : Nat
deriving DecidableEq, Repr

/-- Modelled from the spec: a series is a fingerprint plus its ordered
chunk references (spec §3). -/
structure Series where
  fingerprint : Fingerprint
  chunks : List ChunkRef
deriving DecidableEq, Repr

/-- Modelled from the spec: Bloom filter bit array, stored byte-wise
(`m = 8 * bytes.length` bits); the concrete filter implementation is
absent from `src/`. -/
structure Bloom where
  bytes : List Nat
deriving DecidableEq, Repr

/-- Modelled from the spec: the input unit to the builder and the output
unit of the querier (spec §3). -/
structure SeriesWithBloom where
  series : Series
  bloom : Bloom
deriving DecidableEq, Repr

/-! ## Bloom filter primitive (spec §4.2) -/

/-- Modelled from the spec: the fixed hash count `k` of the Bloom filter;
the concrete parameters are absent from `src/`. -/
def bloomK : Nat := 4

/-- Modelled from the spec: the `i`-th member of the Bloom hash family.
Only totality matters for the spec's properties; the concrete mixing
function is absent from `src/`. -/
def hashToken (t : Token) (i : Nat) : Nat :=
  t.foldl (fun a b => a * 257 + b + 1) (i + 1)

def setBit (bs : List Nat) (pos : Nat) : List Nat :=
  bs.set (pos / 8) (bs.getD (pos / 8) 0 ||| 2 ^ (pos % 8))

def getBit (bs : List Nat) (pos : Nat) : Bool :=
  (bs.getD (pos / 8) 0).testBit (pos % 8)

/-- Modelled from the spec: `Add(token)` sets the `k` hashed bit
positions, each reduced modulo the filter's bit count (spec §4.2). -/
def Bloom.add (b : Bloom) (t : Token) : Bloom :=
  ⟨(List.range bloomK).foldl
    (fun bs i => setBit bs (hashToken t i % (8 * b.bytes.length))) b.bytes⟩

/-- Modelled from the spec: `Test(token)` checks the `k` hashed bit
positions (spec §4.2). -/
def Bloom.test (b : Bloom) (t : Token) : Bool :=
  (List.range bloomK).all
    (fun i => getBit b.bytes (hashToken t i % (8 * b.bytes.length)))

theorem setBit_length (bs : List Nat) (p : Nat) :
    (setBit bs p).length = bs.length := by
  simp [setBit]

theorem getBit_setBit_self {bs : List Nat} {p : Nat} (h : p / 8 < bs.length) :
    getBit (setBit bs p) p = true := by
  unfold getBit setBit
  rw [List.getD_eq_getElem?_getD, List.getElem?_set_self h]
  simp [Nat.testBit_lor, Nat.testBit_two_pow_self]

theorem getBit_setBit_mono {bs : List Nat} {p q : Nat}
    (h : getBit bs q = true) : getBit (setBit bs p) q = true := by
  unfold getBit setBit
  unfold getBit at h
  by_cases hpq : p / 8 = q / 8
  · rw [hpq]
    by_cases hlt : q / 8 < bs.length
    · rw [List.getD_eq_getElem?_getD, List.getElem?_set_self hlt]
      rw [List.getD_eq_getElem?_getD, List.getElem?_eq_getElem hlt] at h
      simp only [Option.getD_some] at h
      simp only [Option.getD_some]
      rw [Nat.testBit_lor, List.getD_eq_getElem?_getD, List.getElem?_eq_getElem hlt]
      simp only [Option.getD_some]
      rw [h]
      simp
    · rw [List.set_eq_of_length_le (Nat.le_of_not_lt hlt)]
      exact h
  · rw [List.getD_eq_getElem?_getD, List.getElem?_set_ne hpq]
    rw [List.getD_eq_getElem?_getD] at h
    exact h

theorem foldl_setBit_length (is : List Nat) (f : Nat → Nat) (bs : List Nat) :
    (is.foldl (fun a i => setBit a (f i)) bs).length = bs.length := by
  induction is generalizing bs with
  | nil => rfl
  | cons i rest ih => rw [List.foldl_cons, ih, setBit_length]

theorem foldl_setBit_mono {is : List Nat} {f : Nat → Nat} {bs : List Nat} {q : Nat}
    (h : getBit bs q = true) :
    getBit (is.foldl (fun a i => setBit a (f i)) bs) q = true := by
  induction is generalizing bs with
  | nil => exact h
  | cons i rest ih => exact ih (getBit_setBit_mono h)

theorem foldl_setBit_sets {is : List Nat} {f : Nat → Nat} {bs : List Nat} {j : Nat}
    (hj : j ∈ is) (hlt : ∀ i, f i / 8 < bs.length) :
    getBit (is.foldl (fun a i => setBit a (f i)) bs) (f j) = true := by
  induction is generalizing bs with
  | nil => simp at hj
  | cons i rest ih =>
    rw [List.foldl_cons]
    rcases List.mem_cons.mp hj with h | h
    · subst h
      exact foldl_setBit_mono (getBit_setBit_self (hlt j))
    · exact ih h (fun i => by rw [setBit_length]; exact hlt i)

theorem Bloom.add_length (b : Bloom) (t : Token) :
    (b.add t).bytes.length = b.bytes.length :=
  foldl_setBit_length _ _ _

theorem div8_lt {x len : Nat} (hx : x < 8 * len) : x / 8 < len := by
  rw [Nat.div_lt_iff_lt_mul (by norm_num : 0 < 8)]
  omega

/-- Adding a token makes the token test positive (filter nonempty). -/
theorem Bloom.test_add_self {b : Bloom} (t : Token) (hne : b.bytes ≠ []) :
    (b.add t).test t = true := by
  have hpos : 0 < b.bytes.length := List.length_pos.mpr hne
  unfold Bloom.test
  rw [List.all_eq_true]
  intro i hi
  rw [Bloom.add_length]
  unfold Bloom.add
  simp only [decide_eq_true_eq]
  exact foldl_setBit_sets hi
    (fun j => div8_lt (Nat.mod_lt _ (by positivity)))

/-- A positive test is preserved by further `add`s. -/
theorem Bloom.test_mono {b : Bloom} {t u : Token}
    (h : b.test t = true) : (b.add u).test t = true := by
  unfold Bloom.test at h ⊢
  rw [List.all_eq_true] at h ⊢
  intro i hi
  rw [Bloom.add_length]
  unfold Bloom.add
  simp only [decide_eq_true_eq]
  have hh := h i hi
  simp only [decide_eq_true_eq] at hh
  exact foldl_setBit_mono hh

theorem Bloom.add_bytes_ne_nil {b : Bloom} (u : Token) (h : b.bytes ≠ []) :
    (b.add u).bytes ≠ [] := by
  intro hnil
  have hl := Bloom.add_length b u
  rw [hnil] at hl
  exact h (List.length_eq_zero.mp hl.symm)

theorem foldl_add_test_mono {ts : List Token} {b : Bloom} {t : Token}
    (h : b.test t = true) : (ts.foldl Bloom.add b).test t = true := by
  induction ts generalizing b with
  | nil => exact h
  | cons u rest ih => exact ih (Bloom.test_mono h)

theorem foldl_add_test {ts : List Token} {b : Bloom} {t : Token}
    (ht : t ∈ ts) (hne : b.bytes ≠ []) :
    (ts.foldl Bloom.add b).test t = true := by
  induction ts generalizing b with
  | nil => simp at ht
  | cons u rest ih =>
    rw [List.foldl_cons]
    rcases List.mem_cons.mp ht with h | h
    · subst h
      exact foldl_add_test_mono (Bloom.test_add_self t hne)
    · exact ih h (Bloom.add_bytes_ne_nil u hne)

/-- Modelled from the spec: the fixed filter size used when building test
blooms; any positive byte count works for the spec's properties. -/
def bloomByteLen : Nat := 64

def emptyBloom : Bloom := ⟨List.replicate bloomByteLen 0⟩

/-- Build a bloom by adding each token of a list in order. -/
def mkBloom (ts : List Token) : Bloom := ts.foldl Bloom.add emptyBloom

/-- Every token added before the build tests positive afterwards. -/
theorem mkBloom_test {ts : List Token} {t : Token} (ht : t ∈ ts) :
    (mkBloom ts).test t = true :=
  foldl_add_test ht (by simp [emptyBloom, bloomByteLen])

/-- Modelled from the spec: a bloom is wire-encoded as
`uvarint(byte_len)` followed by its raw bits (spec §4.2). -/
def encodeBloom (b : Bloom) : List Nat := leb128 b.bytes.length ++ b.bytes

/-- Modelled from the spec: bloom decoding, inverse of `encodeBloom`. -/
def decodeBloom (bs : List Nat) : Option Bloom :=
  match lebParse bs with
  | some (n, rest) => if rest.length = n then some ⟨rest⟩ else none
  | none => none

theorem decodeBloom_encodeBloom (b : Bloom) :
    decodeBloom (encodeBloom b) = some b := by
  unfold decodeBloom encodeBloom
  rw [lebParse_leb128]
  simp

/-! ## Schema & block options (spec §3) -/

/-- Modelled from the spec: the enumerated page codecs; the identity codec
and snappy (spec §4.3).  Snappy's algorithm is absent from both `src/` and
the spec, which pins only losslessness, so both codecs are modelled as the
identity transformation on bytes. -/
inductive Codec where
  | encNone
  | encSnappy
deriving DecidableEq, Repr

def Codec.id : Codec → Nat
  | .encNone => 0
  | .encSnappy => 1

def codecOfId : Nat → Option Codec
  | 0 => some .encNone
  | 1 => some .encSnappy
  | _ => none

theorem codecOfId_id (c : Codec) : codecOfId c.id = some c := by
  cases c <;> rfl

/-- Modelled from the spec: page compression; snappy is specified only as
a lossless codec, so both variants act as the identity on bytes. -/
def Codec.compress (_ : Codec) (bs : List Nat) : List Nat := bs

/-- Modelled from the spec: page decompression, inverse of compression. -/
def Codec.decompress (_ : Codec) (bs : List Nat) : List Nat := bs

/-- Modelled from the spec: the version tag, codec id and n-gram
tokenisation parameters fixed at block creation (spec §3). -/
structure Schema where
  version : Nat
  encoding : Codec
  nGramLength : Nat
  nGramSkip : Nat
deriving DecidableEq, Repr

/-- Modelled from the spec: the single schema version written by the
current builder. -/
def DefaultSchemaVersion : Nat := 1

/-- Modelled from the spec: block options — schema plus the soft page size
targets of the two streams (spec §3). -/
structure BlockOptions where
  schema : Schema
  SeriesPageSize : Nat
  BloomPageSize : Nat
deriving DecidableEq, Repr

/-! ## Pagination (spec §4.5)

The builder seals the in-progress page before an append whenever
`current_page_bytes > target` and the page already holds at least one
entry; pages therefore always contain at least one entry. -/

def paginateAux (target : Nat) (sz : α → Nat) :
    List α → List α → Nat → List (List α)
  | [], cur, _ => [cur]
  | x :: xs, cur, bytes =>
    if target < bytes then cur :: paginateAux target sz xs [x] (sz x)
    else paginateAux target sz xs (cur ++ [x]) (bytes + sz x)

/-- Modelled from the spec: split a stream of entries into pages using the
builder's seal rule (spec §4.5). -/
def paginate (target : Nat) (sz : α → Nat) : List α → List (List α)
  | [] => []
  | x :: xs => paginateAux target sz xs [x] (sz x)

theorem paginateAux_join (target : Nat) (sz : α → Nat) (xs : List α) :
    ∀ cur bytes, (paginateAux target sz xs cur bytes).flatten = cur ++ xs := by
  induction xs with
  | nil => intro cur bytes; simp [paginateAux]
  | cons x rest ih =>
    intro cur bytes
    unfold paginateAux
    by_cases h : target < bytes
    · simp only [h, if_true, List.flatten_cons, ih]
      simp
    · simp only [h, if_false, ih]
      simp

theorem paginate_join (target : Nat) (sz : α → Nat) (xs : List α) :
    (paginate target sz xs).flatten = xs := by
  cases xs with
  | nil => rfl
  | cons x rest => simpa using paginateAux_join target sz rest [x] (sz x)

theorem paginateAux_ne_nil (target : Nat) (sz : α → Nat) (xs : List α) :
    ∀ cur bytes, cur ≠ [] → ∀ pg ∈ paginateAux target sz xs cur bytes, pg ≠ [] := by
  induction xs with
  | nil =>
    intro cur bytes hcur pg hpg
    simp only [paginateAux, List.mem_singleton] at hpg
    subst hpg; exact hcur
  | cons x rest ih =>
    intro cur bytes hcur pg hpg
    unfold paginateAux at hpg
    by_cases h : target < bytes
    · simp only [h, if_true, List.mem_cons] at hpg
      rcases hpg with hpg | hpg
      · subst hpg; exact hcur
      · exact ih [x] (sz x) (by simp) pg hpg
    · simp only [h, if_false] at hpg
      exact ih (cur ++ [x]) (bytes + sz x) (by simp) pg hpg

theorem paginate_ne_nil (target : Nat) (sz : α → Nat) (xs : List α) :
    ∀ pg ∈ paginate target sz xs, pg ≠ [] := by
  cases xs with
  | nil => intro pg hpg; simp [paginate] at hpg
  | cons x rest =>
    exact paginateAux_ne_nil target sz rest [x] (sz x) (by simp)

/-! ## Bloom page addressing

The builder records, for every input series, the bloom page index, the
byte offset of its encoded bloom inside that page, and its byte length
(spec §4.5 step 2). -/

/-- Running offsets of a page's encoded blooms within the page payload. -/
def offsetsFrom (start : Nat) : List (List Nat) → List (Nat × List Nat)
  | [] => []
  | b :: bs => (start, b) :: offsetsFrom (start + b.length) bs

theorem offsetsFrom_snd (start : Nat) (bs : List (List Nat)) :
    (offsetsFrom start bs).map Prod.snd = bs := by
  induction bs generalizing start with
  | nil => rfl
  | cons b rest ih => simp [offsetsFrom, ih]

theorem offsetsFrom_extract (bs : List (List Nat)) :
    ∀ (pre : List Nat) ob, ob ∈ offsetsFrom pre.length bs →
      extract (pre ++ bs.flatten) ob.1 ob.2.length = ob.2 := by
  induction bs with
  | nil => intro pre ob hob; simp [offsetsFrom] at hob
  | cons b rest ih =>
    intro pre ob hob
    simp only [offsetsFrom, List.mem_cons] at hob
    rcases hob with hob | hob
    · subst hob
      simp only [List.flatten_cons]
      rw [show pre ++ (b ++ rest.flatten) = pre ++ b ++ rest.flatten from by simp]
      exact extract_at pre b rest.flatten
    · have := ih (pre ++ b) ob (by simpa [List.length_append] using hob)
      simpa [List.flatten_cons, List.append_assoc] using this

theorem offsetsFrom_extract_zero (bs : List (List Nat)) (ob : Nat × List Nat)
    (hob : ob ∈ offsetsFrom 0 bs) :
    extract bs.flatten ob.1 ob.2.length = ob.2 := by
  have := offsetsFrom_extract bs [] ob (by simpa using hob)
  simpa using this

/-- Flatten bloom pages into `(page_index, offset_in_page, encoded_bloom)`
address triples, in input order. -/
def withAddrs (pages : List (List (List Nat))) : List (Nat × Nat × List Nat) :=
  (pages.enum.map
    (fun p => (offsetsFrom 0 p.2).map (fun ob => (p.1, ob.1, ob.2)))).flatten

theorem withAddrs_thirds (pages : List (List (List Nat))) :
    (withAddrs pages).map (fun a => a.2.2) = pages.flatten := by
  unfold withAddrs
  rw [List.map_flatten, List.map_map]
  congr 1
  have : ∀ (ps : List (Nat × List (List Nat))),
      ps.map ((fun l => l.map (fun a => a.2.2)) ∘
        (fun p => (offsetsFrom 0 p.2).map (fun ob => (p.1, ob.1, ob.2)))) =
      ps.map (fun p => p.2) := by
    intro ps
    apply List.map_congr_left
    intro p _
    simp only [Function.comp_apply, List.map_map]
    have := offsetsFrom_snd 0 p.2
    calc (offsetsFrom 0 p.2).map ((fun a => a.2.2) ∘ (fun ob => (p.1, ob.1, ob.2)))
        = (offsetsFrom 0 p.2).map Prod.snd := by rfl
    _ = p.2 := this
  rw [this]
  rw [List.enum_map_snd]

theorem withAddrs_addr (pages : List (List (List Nat))) :
    ∀ a ∈ withAddrs pages, ∃ pg, pages[a.1]? = some pg ∧
      extract pg.flatten a.2.1 a.2.2.length = a.2.2 := by
  unfold withAddrs
  intro a ha
  rw [List.mem_flatten] at ha
  rcases ha with ⟨l, hl, hal⟩
  rw [List.mem_map] at hl
  rcases hl with ⟨p, hp, rfl⟩
  rw [List.mem_map] at hal
  rcases hal with ⟨ob, hob, rfl⟩
  refine ⟨p.2, ?_, ?_⟩
  · exact List.mem_enum_iff_getElem?.mp hp
  · exact offsetsFrom_extract_zero p.2 ob hob

/-! ## Series entries and their wire format (spec §4.5, §6) -/

/-- Modelled from the spec: a series-page entry —
`(fingerprint, chunk_refs, bloom_page_index, bloom_offset_within_page,
bloom_length)` (spec §4.5 step 2). -/
structure SeriesEntry where
  fingerprint : Fingerprint
  chunks : List ChunkRef
  bloomPage : Nat
  bloomOff : Nat
  bloomLen : Nat
deriving DecidableEq, Repr

/-- Modelled from the spec: chunk-ref serialization with LEB128 integers
(spec §6). -/
def encodeChunk (c : ChunkRef) : List Nat :=
  leb128 c.fromMs ++ leb128 c.throughMs ++ leb128 c.checksum

/-- Modelled from the spec: series-entry serialization — fingerprint,
chunk count, chunks, then the bloom address triple, all LEB128. -/
def encodeEntry (e : SeriesEntry) : List Nat :=
  leb128 e.fingerprint ++ leb128 e.chunks.length ++
    (e.chunks.map encodeChunk).flatten ++
    leb128 e.bloomPage ++ leb128 e.bloomOff ++ leb128 e.bloomLen

def parseChunk (bs : List Nat) : Option (ChunkRef × List Nat) :=
  match lebParse bs with
  | none => none
  | some (f, r1) =>
    match lebParse r1 with
    | none => none
    | some (t, r2) =>
      match lebParse r2 with
      | none => none
      | some (cs, r3) => some (⟨f, t, cs⟩, r3)

def parseChunks : Nat → List Nat → Option (List ChunkRef × List Nat)
  | 0, bs => some ([], bs)
  | n + 1, bs =>
    match parseChunk bs with
    | none => none
    | some (c, r) =>
      match parseChunks n r with
      | none => none
      | some (cs, r2) => some (c :: cs, r2)

/-- Modelled from the spec: the reader's sequential cursor over a series
page decodes one entry at a time (spec §4.3). -/
def parseEntry (bs : List Nat) : Option (SeriesEntry × List Nat) :=
  match lebParse bs with
  | none => none
  | some (fp, r1) =>
    match lebParse r1 with
    | none => none
    | some (n, r2) =>
      match parseChunks n r2 with
      | none => none
      | some (cs, r3) =>
        match lebParse r3 with
        | none => none
        | some (pg, r4) =>
          match lebParse r4 with
          | none => none
          | some (off, r5) =>
            match lebParse r5 with
            | none => none
            | some (len, r6) => some (⟨fp, cs, pg, off, len⟩, r6)

def parseEntries : Nat → List Nat → Option (List SeriesEntry × List Nat)
  | 0, bs => some ([], bs)
  | n + 1, bs =>
    match parseEntry bs with
    | none => none
    | some (e, r) =>
      match parseEntries n r with
      | none => none
      | some (es, r2) => some (e :: es, r2)

theorem parseChunk_encodeChunk (c : ChunkRef) (t : List Nat) :
    parseChunk (encodeChunk c ++ t) = some (c, t) := by
  unfold parseChunk encodeChunk
  rw [List.append_assoc, List.append_assoc, lebParse_leb128]
  simp only
  rw [lebParse_leb128]
  simp only
  rw [lebParse_leb128]

theorem parseChunks_encode (cs : List ChunkRef) (t : List Nat) :
    parseChunks cs.length ((cs.map encodeChunk).flatten ++ t) = some (cs, t) := by
  induction cs generalizing t with
  | nil => simp [parseChunks]
  | cons c rest ih =>
    simp only [List.length_cons, List.map_cons, List.flatten_cons, parseChunks,
      List.append_assoc, parseChunk_encodeChunk c ((rest.map encodeChunk).flatten ++ t)]
    rw [ih t]

theorem parseEntry_encodeEntry (e : SeriesEntry) (t : List Nat) :
    parseEntry (encodeEntry e ++ t) = some (e, t) := by
  unfold parseEntry encodeEntry
  simp only [List.append_assoc]
  rw [lebParse_leb128]
  simp only
  rw [lebParse_leb128]
  simp only
  rw [← List.append_assoc ((e.chunks.map encodeChunk).flatten)]
  rw [show (e.chunks.map encodeChunk).flatten ++ leb128 e.bloomPage ++
      (leb128 e.bloomOff ++ (leb128 e.bloomLen ++ t)) =
      (e.chunks.map encodeChunk).flatten ++ (leb128 e.bloomPage ++
      (leb128 e.bloomOff ++ (leb128 e.bloomLen ++ t))) from by simp]
  rw [parseChunks_encode]
  simp only
  rw [lebParse_leb128]
  simp only
  rw [lebParse_leb128]
  simp only
  rw [lebParse_leb128]

theorem parseEntries_encode (es : List SeriesEntry) (t : List Nat) :
    parseEntries es.length ((es.map encodeEntry).flatten ++ t) = some (es, t) := by
  induction es generalizing t with
  | nil => simp [parseEntries]
  | cons e rest ih =>
    simp only [List.length_cons, List.map_cons, List.flatten_cons, parseEntries,
      List.append_assoc, parseEntry_encodeEntry e ((rest.map encodeEntry).flatten ++ t)]
    rw [ih t]

/-- Modelled from the spec: a series-page payload is the entry count
followed by the serialized entries. -/
def encodeSeriesPage (es : List SeriesEntry) : List Nat :=
  leb128 es.length ++ (es.map encodeEntry).flatten

/-- Modelled from the spec: decode a whole series-page payload. -/
def parseSeriesPage (bs : List Nat) : Option (List SeriesEntry) :=
  match lebParse bs with
  | none => none
  | some (n, r) =>
    match parseEntries n r with
    | some (es, []) => some es
    | _ => none

theorem parseSeriesPage_encode (es : List SeriesEntry) :
    parseSeriesPage (encodeSeriesPage es) = some es := by
  unfold parseSeriesPage encodeSeriesPage
  rw [lebParse_leb128]
  simp only
  have := parseEntries_encode es []
  rw [List.append_nil] at this
  rw [this]

/-! ## Index-of-pages footer and stream layout (spec §6) -/

/-- Modelled from the spec: one index-of-pages record —
`{offset, compressed_len, uncompressed_len, crc, min_fp, max_fp}`; the
bloom stream omits the two fingerprints (spec §6). -/
structure FooterEntry where
  off : Nat
  clen : Nat
  ulen : Nat
  crc : Nat
  minFp : Nat
  maxFp : Nat
deriving DecidableEq, Repr

/-- Encoded size of a footer record: six (index stream) or four (bloom
stream) 8-byte little-endian fields. -/
def feSize (withFps : Bool) : Nat := if withFps then 48 else 32

def encodeFooterEntry (withFps : Bool) (fe : FooterEntry) : List Nat :=
  leN 8 fe.off ++ leN 8 fe.clen ++ leN 8 fe.ulen ++ leN 8 fe.crc ++
    (if withFps then leN 8 fe.minFp ++ leN 8 fe.maxFp else [])

theorem encodeFooterEntry_length (withFps : Bool) (fe : FooterEntry) :
    (encodeFooterEntry withFps fe).length = feSize withFps := by
  cases withFps <;> simp [encodeFooterEntry, feSize, leN_length]

/-- Read one 8-byte little-endian integer off the front of a byte list. -/
def parseLe8 (bs : List Nat) : Option (Nat × List Nat) :=
  if 8 ≤ bs.length then some (decodeLe (bs.take 8), bs.drop 8) else none

theorem lt_256_pow8 {x : Nat} (h : x < 2 ^ 64) : x < 256 ^ 8 := by
  have h2 : (256 : Nat) ^ 8 = 2 ^ 64 := by norm_num
  omega

theorem parseLe8_leN {n : Nat} (t : List Nat) (h : n < 256 ^ 8) :
    parseLe8 (leN 8 n ++ t) = some (n, t) := by
  unfold parseLe8
  have hlen : (leN 8 n).length = 8 := leN_length 8 n
  rw [if_pos (by rw [List.length_append, hlen]; omega)]
  rw [List.take_left' hlen, List.drop_left' hlen, decodeLe_leN_of_lt h]

def parseFooterEntry (withFps : Bool) (bs : List Nat) :
    Option (FooterEntry × List Nat) :=
  match parseLe8 bs with
  | none => none
  | some (off, r1) =>
    match parseLe8 r1 with
    | none => none
    | some (clen, r2) =>
      match parseLe8 r2 with
      | none => none
      | some (ulen, r3) =>
        match parseLe8 r3 with
        | none => none
        | some (crc, r4) =>
          if withFps then
            match parseLe8 r4 with
            | none => none
            | some (minFp, r5) =>
              match parseLe8 r5 with
              | none => none
              | some (maxFp, r6) => some (⟨off, clen, ulen, crc, minFp, maxFp⟩, r6)
          else some (⟨off, clen, ulen, crc, 0, 0⟩, r4)

def parseFooterEntries (withFps : Bool) : Nat → List Nat → Option (List FooterEntry)
  | 0, [] => some []
  | 0, _ :: _ => none
  | n + 1, bs =>
    match parseFooterEntry withFps bs with
    | none => none
    | some (fe, r) =>
      match parseFooterEntries withFps n r with
      | none => none
      | some fes => some (fe :: fes)

/-- Fields of a footer record fit the fixed-width on-disk integers; bloom
stream records carry zero fingerprints. -/
def feOk (withFps : Bool) (fe : FooterEntry) : Prop :=
  fe.off < 2 ^ 64 ∧ fe.clen < 2 ^ 64 ∧ fe.ulen < 2 ^ 64 ∧ fe.crc < 2 ^ 64 ∧
    (match withFps with
     | true => fe.minFp < 2 ^ 64 ∧ fe.maxFp < 2 ^ 64
     | false => fe.minFp = 0 ∧ fe.maxFp = 0)

instance (w : Bool) (fe : FooterEntry) : Decidable (feOk w fe) := by
  cases w <;> (unfold feOk; simp only; infer_instance)

theorem parseFooterEntry_encode {withFps : Bool} {fe : FooterEntry}
    (hok : feOk withFps fe) (t : List Nat) :
    parseFooterEntry withFps (encodeFooterEntry withFps fe ++ t) = some (fe, t) := by
  obtain ⟨off, clen, ulen, crc, minFp, maxFp⟩ := fe
  cases withFps with
  | true =>
    obtain ⟨h1, h2, h3, h4, h5, h6⟩ := hok
    unfold parseFooterEntry encodeFooterEntry
    simp only [reduceIte, List.append_assoc]
    rw [parseLe8_leN _ (lt_256_pow8 h1)]
    simp only
    rw [parseLe8_leN _ (lt_256_pow8 h2)]
    simp only
    rw [parseLe8_leN _ (lt_256_pow8 h3)]
    simp only
    rw [parseLe8_leN _ (lt_256_pow8 h4)]
    simp only
    rw [parseLe8_leN _ (lt_256_pow8 h5)]
    simp only
    rw [parseLe8_leN _ (lt_256_pow8 h6)]
  | false =>
    obtain ⟨h1, h2, h3, h4, h5, h6⟩ := hok
    simp only at h5 h6
    subst h5
    subst h6
    unfold parseFooterEntry encodeFooterEntry
    simp only [reduceIte, List.append_nil, List.append_assoc]
    rw [parseLe8_leN _ (lt_256_pow8 h1)]
    simp only
    rw [parseLe8_leN _ (lt_256_pow8 h2)]
    simp only
    rw [parseLe8_leN _ (lt_256_pow8 h3)]
    simp only
    rw [parseLe8_leN _ (lt_256_pow8 h4)]
    simp

theorem parseFooterEntries_encode {withFps : Bool} (es : List FooterEntry)
    (hok : ∀ fe ∈ es, feOk withFps fe) :
    parseFooterEntries withFps es.length
      ((es.map (encodeFooterEntry withFps)).flatten) = some es := by
  induction es with
  | nil => rfl
  | cons fe rest ih =>
    simp only [List.length_cons, List.map_cons, List.flatten_cons, parseFooterEntries]
    rw [parseFooterEntry_encode (hok fe (by simp)) _]
    simp only
    rw [ih (fun e he => hok e (by simp [he]))]

/-! ## Schema header/trailer (spec §4.3, §6) -/

/-- Modelled from the spec: the schema header — version byte, codec id
byte, then the two n-gram parameters as 8-byte little-endian integers;
written once at the start and once at the end of each stream (spec §4.3). -/
def encodeSchema (s : Schema) : List Nat :=
  s.version :: s.encoding.id :: (leN 8 s.nGramLength ++ leN 8 s.nGramSkip)

theorem encodeSchema_length (s : Schema) : (encodeSchema s).length = 18 := by
  simp [encodeSchema, leN_length]

/-- Modelled from the spec: schema decoding; unknown versions and codec
ids are fatal load errors (spec §4.3, §7). -/
def parseSchema (bs : List Nat) : Option Schema :=
  match bs with
  | v :: c :: rest =>
    if v = DefaultSchemaVersion then
      match codecOfId c with
      | some codec =>
        if rest.length = 16 then
          some ⟨v, codec, decodeLe (rest.take 8), decodeLe (rest.drop 8)⟩
        else none
      | none => none
    else none
  | _ => none

/-- The schema a builder will accept: current version, bounded n-gram
parameters. -/
def schemaOk (s : Schema) : Prop :=
  s.version = DefaultSchemaVersion ∧ s.nGramLength < 2 ^ 64 ∧ s.nGramSkip < 2 ^ 64

instance (s : Schema) : Decidable (schemaOk s) := by
  unfold schemaOk; infer_instance

theorem parseSchema_encode {s : Schema} (hok : schemaOk s) :
    parseSchema (encodeSchema s) = some s := by
  obtain ⟨hv, h1, h2⟩ := hok
  unfold parseSchema encodeSchema
  simp only
  rw [if_pos hv, codecOfId_id]
  simp only
  have hl1 := leN_length 8 s.nGramLength
  have hl2 := leN_length 8 s.nGramSkip
  rw [if_pos (by simp [hl1, hl2])]
  rw [List.take_left' hl1, List.drop_left' hl1]
  rw [decodeLe_leN_of_lt (lt_256_pow8 h1), decodeLe_leN_of_lt (lt_256_pow8 h2)]

/-! ## Stream assembly (spec §6) -/

/-- Modelled from the spec: a page as written — compressed payload
followed by its CRC32 (spec §6). -/
def pageBlob (payload : List Nat) : List Nat :=
  payload ++ leN 4 (crc32c payload)

def pagesBytes (payloads : List (List Nat)) : List Nat :=
  (payloads.map pageBlob).flatten

/-- Pair each page payload with its absolute stream offset. -/
def pagesWithOffsets (start : Nat) : List (List Nat) → List (Nat × List Nat)
  | [] => []
  | p :: ps => (start, p) :: pagesWithOffsets (start + (p.length + 4)) ps

theorem pagesWithOffsets_extract (ps : List (List Nat)) :
    ∀ (pre post : List Nat) ob, ob ∈ pagesWithOffsets pre.length ps →
      extract (pre ++ pagesBytes ps ++ post) ob.1 ob.2.length = ob.2 := by
  induction ps with
  | nil => intro pre post ob hob; simp [pagesWithOffsets] at hob
  | cons p rest ih =>
    intro pre post ob hob
    simp only [pagesWithOffsets, List.mem_cons] at hob
    rcases hob with hob | hob
    · subst hob
      simp only [pagesBytes, List.map_cons, List.flatten_cons, pageBlob]
      rw [show pre ++ (p ++ leN 4 (crc32c p) ++ (rest.map pageBlob).flatten) ++ post =
          pre ++ p ++ (leN 4 (crc32c p) ++ (rest.map pageBlob).flatten ++ post) from by simp]
      exact extract_at pre p _
    · have hlen : (pre ++ pageBlob p).length = pre.length + (p.length + 4) := by
        simp [pageBlob, leN_length]
      have := ih (pre ++ pageBlob p) post ob (by rw [hlen]; exact hob)
      rw [show pre ++ pageBlob p ++ pagesBytes rest ++ post =
          pre ++ pagesBytes (p :: rest) ++ post from by
        simp [pagesBytes, pageBlob, List.append_assoc]] at this
      exact this

/-- Modelled from the spec: the index-of-pages records for a stream of
page payloads — offset, compressed and uncompressed length, CRC, and the
per-page fingerprint range handed in as `mm` (zeros for the bloom
stream).  Under the identity codecs the two lengths coincide. -/
def footerOf (start : Nat) (pls : List (List Nat)) (mm : List (Nat × Nat)) :
    List FooterEntry :=
  List.zipWith
    (fun ob m => ⟨ob.1, ob.2.length, ob.2.length, crc32c ob.2, m.1, m.2⟩)
    (pagesWithOffsets start pls) mm

/-- Serialized index-of-pages. -/
def footerBytes (withFps : Bool) (fes : List FooterEntry) : List Nat :=
  (fes.map (encodeFooterEntry withFps)).flatten

/-- Modelled from the spec: the full stream layout —
`[schema_header][pages][index_of_pages][index_of_pages_len][schema_trailer]`
(spec §6). -/
def encodeStreamBytes (schema : Schema) (withFps : Bool)
    (payloads : List (List Nat)) (mm : List (Nat × Nat)) : List Nat :=
  let hdr := encodeSchema schema
  let fb := footerBytes withFps (footerOf 18 payloads mm)
  hdr ++ pagesBytes payloads ++ fb ++ leN 8 fb.length ++ hdr

/-- Modelled from the spec: the reader's page load — seek to the recorded
offset, read `compressed_len` bytes, verify the CRC, decompress to exactly
`uncompressed_len` bytes (spec §4.3). -/
def readPage (codec : Codec) (bs : List Nat) (fe : FooterEntry) :
    Option (List Nat) :=
  let payload := extract bs fe.off fe.clen
  if payload.length = fe.clen ∧ crc32c payload = fe.crc then
    let un := codec.decompress payload
    if un.length = fe.ulen then some un else none
  else none

def readPages (codec : Codec) (bs : List Nat) (fes : List FooterEntry) :
    Option (List (List Nat)) :=
  fes.mapM (readPage codec bs)

/-- Modelled from the spec: loading a stream's headers — schema header and
trailer, then the index-of-pages, then the page payloads on demand
(spec §4.6 `LoadHeaders` plus page loads). -/
def parseStream (withFps : Bool) (bs : List Nat) :
    Option (Schema × List FooterEntry × List (List Nat)) :=
  if bs.length < 44 then none
  else
    match parseSchema (extract bs 0 18) with
    | none => none
    | some schema =>
      match parseSchema (extract bs (bs.length - 18) 18) with
      | none => none
      | some trailer =>
        if trailer = schema then
          let fl := decodeLe (extract bs (bs.length - 26) 8)
          if 44 + fl ≤ bs.length then
            match parseFooterEntries withFps (fl / feSize withFps)
                (extract bs (bs.length - 26 - fl) fl) with
            | none => none
            | some fes =>
              match readPages schema.encoding bs fes with
              | none => none
              | some pls => some (schema, fes, pls)
          else none
        else none

/-! ## Builder (spec §4.5) -/

/-- Strictly ascending fingerprints; the builder rejects anything else
as non-retryable invalid input (spec §4.5 step 3). -/
def strictIncB : List Nat → Bool
  | [] => true
  | [_] => true
  | a :: b :: t => decide (a < b) && strictIncB (b :: t)

def fpsOf (S : List SeriesWithBloom) : List Nat :=
  S.map (fun s => s.series.fingerprint)

def encBloomsOf (S : List SeriesWithBloom) : List (List Nat) :=
  S.map (fun s => encodeBloom s.bloom)

/-- Modelled from the spec: bloom pages formed by the seal rule over the
encoded blooms (spec §4.5 step 1). -/
def bloomPagesOf (opts : BlockOptions) (S : List SeriesWithBloom) :
    List (List (List Nat)) :=
  paginate opts.BloomPageSize List.length (encBloomsOf S)

def bloomPayloadsOf (opts : BlockOptions) (S : List SeriesWithBloom) :
    List (List Nat) :=
  (bloomPagesOf opts S).map (fun pg => opts.schema.encoding.compress pg.flatten)

def addrsOf (opts : BlockOptions) (S : List SeriesWithBloom) :
    List (Nat × Nat × List Nat) :=
  withAddrs (bloomPagesOf opts S)

/-- Modelled from the spec: the series entry recorded for one input —
fingerprint and chunks plus the bloom address (spec §4.5 step 2). -/
def mkEntry (s : SeriesWithBloom) (a : Nat × Nat × List Nat) : SeriesEntry :=
  ⟨s.series.fingerprint, s.series.chunks, a.1, a.2.1, a.2.2.length⟩

def entriesOf (opts : BlockOptions) (S : List SeriesWithBloom) :
    List SeriesEntry :=
  List.zipWith mkEntry S (addrsOf opts S)

def entrySize (e : SeriesEntry) : Nat := (encodeEntry e).length

/-- Modelled from the spec: series pages formed by the seal rule over the
serialized entries (spec §4.5 step 2). -/
def seriesPagesOf (opts : BlockOptions) (S : List SeriesWithBloom) :
    List (List SeriesEntry) :=
  paginate opts.SeriesPageSize entrySize (entriesOf opts S)

def seriesPayloadsOf (opts : BlockOptions) (S : List SeriesWithBloom) :
    List (List Nat) :=
  (seriesPagesOf opts S).map
    (fun pg => opts.schema.encoding.compress (encodeSeriesPage pg))

/-- Fingerprint range `{min_fp, max_fp}` of a series page (spec §6). -/
def pageMinMax (pg : List SeriesEntry) : Nat × Nat :=
  ((pg.head?.map SeriesEntry.fingerprint).getD 0,
   (pg.getLast?.map SeriesEntry.fingerprint).getD 0)

def seriesMetaOf (opts : BlockOptions) (S : List SeriesWithBloom) :
    List (Nat × Nat) :=
  (seriesPagesOf opts S).map pageMinMax

def bloomMetaOf (opts : BlockOptions) (S : List SeriesWithBloom) :
    List (Nat × Nat) :=
  (bloomPagesOf opts S).map (fun _ => (0, 0))

def indexFooterOf (opts : BlockOptions) (S : List SeriesWithBloom) :
    List FooterEntry :=
  footerOf 18 (seriesPayloadsOf opts S) (seriesMetaOf opts S)

def bloomFooterOf (opts : BlockOptions) (S : List SeriesWithBloom) :
    List FooterEntry :=
  footerOf 18 (bloomPayloadsOf opts S) (bloomMetaOf opts S)

/-- Modelled from the spec: the 32-bit block digest — CRC32 (Castagnoli)
of the concatenation of every page's recorded CRC, in write order: index
pages then bloom pages (spec §4.5). -/
def digestOf (opts : BlockOptions) (S : List SeriesWithBloom) : Nat :=
  crc32c (((indexFooterOf opts S ++ bloomFooterOf opts S).map
    (fun fe => leN 4 fe.crc)).flatten)

def indexBytesOf (opts : BlockOptions) (S : List SeriesWithBloom) : List Nat :=
  encodeStreamBytes opts.schema true (seriesPayloadsOf opts S) (seriesMetaOf opts S)

def bloomBytesOf (opts : BlockOptions) (S : List SeriesWithBloom) : List Nat :=
  encodeStreamBytes opts.schema false (bloomPayloadsOf opts S) (bloomMetaOf opts S)

inductive BuildErr where
  | invalidSchema
  | invalidInput
  | sizeOverflow
deriving DecidableEq, Repr

/-- All on-disk fixed-width integers of the block fit their fields. -/
def sizesOk (opts : BlockOptions) (S : List SeriesWithBloom) : Prop :=
  (∀ fe ∈ indexFooterOf opts S, feOk true fe) ∧
  (∀ fe ∈ bloomFooterOf opts S, feOk false fe) ∧
  (footerBytes true (indexFooterOf opts S)).length < 2 ^ 64 ∧
  (footerBytes false (bloomFooterOf opts S)).length < 2 ^ 64

instance (opts : BlockOptions) (S : List SeriesWithBloom) :
    Decidable (sizesOk opts S) := by
  unfold sizesOk; infer_instance

/-- Modelled from the spec: the builder session — validate the schema,
reject non-ascending input, stream both page sets, then seal: footers,
trailers and the 32-bit digest (spec §4.5).  Returns the digest and the
two streams' bytes. -/
def build (opts : BlockOptions) (S : List SeriesWithBloom) :
    Except BuildErr (Nat × List Nat × List Nat) :=
  if schemaOk opts.schema then
    if strictIncB (fpsOf S) then
      if sizesOk opts S then
        .ok (digestOf opts S, indexBytesOf opts S, bloomBytesOf opts S)
      else .error .sizeOverflow
    else .error .invalidInput
  else .error .invalidSchema

/-! ## Stream round-trip -/

theorem readPages_footerOf (codec : Codec) (pls : List (List Nat)) :
    ∀ (pre post : List Nat) (mm : List (Nat × Nat)), mm.length = pls.length →
      readPages codec (pre ++ pagesBytes pls ++ post)
        (footerOf pre.length pls mm) = some pls := by
  induction pls with
  | nil =>
    intro pre post mm _
    rfl
  | cons p rest ih =>
    intro pre post mm hmm
    cases mm with
    | nil => simp at hmm
    | cons m mm' =>
      simp only [footerOf, pagesWithOffsets, List.zipWith_cons_cons, readPages,
        List.mapM_cons]
      have hhead : readPage codec (pre ++ pagesBytes (p :: rest) ++ post)
          ⟨pre.length, p.length, p.length, crc32c p, m.1, m.2⟩ = some p := by
        unfold readPage
        have hx : extract (pre ++ pagesBytes (p :: rest) ++ post) pre.length p.length
            = p := by
          have := pagesWithOffsets_extract (p :: rest) pre post (pre.length, p)
            (by simp [pagesWithOffsets])
          simpa using this
        simp only [hx]
        rw [if_pos (by simp)]
        simp [Codec.decompress]
      rw [hhead]
      simp only [Option.bind_eq_bind, Option.some_bind]
      have hpre : (pre ++ pageBlob p).length = pre.length + (p.length + 4) := by
        simp [pageBlob, leN_length]
      have htail := ih (pre ++ pageBlob p) post mm' (by simpa using hmm)
      rw [hpre] at htail
      rw [show pre ++ pageBlob p ++ pagesBytes rest ++ post =
          pre ++ pagesBytes (p :: rest) ++ post from by
        simp [pagesBytes, pageBlob, List.append_assoc]] at htail
      unfold readPages footerOf at htail
      rw [htail]
      rfl

theorem footerBytes_length (withFps : Bool) (fes : List FooterEntry) :
    (footerBytes withFps fes).length = fes.length * feSize withFps := by
  induction fes with
  | nil => simp [footerBytes]
  | cons fe rest ih =>
    simp only [footerBytes, List.map_cons, List.flatten_cons, List.length_append,
      List.length_cons, encodeFooterEntry_length]
    simp only [footerBytes] at ih
    rw [ih]
    ring

theorem feSize_pos (withFps : Bool) : 0 < feSize withFps := by
  cases withFps <;> simp [feSize]

/-- Parsing the encoded stream recovers the schema, the footer, and the
(decompressed) page payloads. -/
theorem parseStream_encode {schema : Schema} (withFps : Bool)
    (payloads : List (List Nat)) (mm : List (Nat × Nat))
    (hs : schemaOk schema) (hmm : mm.length = payloads.length)
    (hfe : ∀ fe ∈ footerOf 18 payloads mm, feOk withFps fe)
    (hfl : (footerBytes withFps (footerOf 18 payloads mm)).length < 2 ^ 64) :
    parseStream withFps (encodeStreamBytes schema withFps payloads mm) =
      some (schema, footerOf 18 payloads mm, payloads) := by
  set hdr := encodeSchema schema with hhdr
  set P := pagesBytes payloads with hP
  set F := footerBytes withFps (footerOf 18 payloads mm) with hF
  set L := leN 8 F.length with hL
  have hdrLen : hdr.length = 18 := encodeSchema_length schema
  have lLen : L.length = 8 := leN_length 8 F.length
  have hbs : encodeStreamBytes schema withFps payloads mm =
      hdr ++ P ++ F ++ L ++ hdr := rfl
  rw [hbs]
  have hlen : (hdr ++ P ++ F ++ L ++ hdr).length =
      18 + P.length + F.length + 8 + 18 := by
    simp [List.length_append, hdrLen, lLen]
    try omega
  unfold parseStream
  rw [if_neg (by rw [hlen]; omega)]
  have hx0 : extract (hdr ++ P ++ F ++ L ++ hdr) 0 18 = hdr := by
    rw [show hdr ++ P ++ F ++ L ++ hdr = hdr ++ (P ++ F ++ L ++ hdr) from by simp,
      ← hdrLen]
    have := extract_at [] hdr (P ++ F ++ L ++ hdr)
    simpa using this
  rw [hx0, parseSchema_encode hs]
  simp only
  have hxT : extract (hdr ++ P ++ F ++ L ++ hdr)
      ((hdr ++ P ++ F ++ L ++ hdr).length - 18) 18 = hdr := by
    rw [hlen]
    have harith : 18 + P.length + F.length + 8 + 18 - 18 =
        (hdr ++ P ++ F ++ L).length := by
      simp [List.length_append, hdrLen, lLen]; try omega
    rw [harith, ← hdrLen]
    have := extract_at (hdr ++ P ++ F ++ L) hdr []
    simpa using this
  rw [hxT, parseSchema_encode hs]
  simp only [eq_self_iff_true, if_true]
  have hxL : extract (hdr ++ P ++ F ++ L ++ hdr)
      ((hdr ++ P ++ F ++ L ++ hdr).length - 26) 8 = L := by
    rw [hlen]
    have harith : 18 + P.length + F.length + 8 + 18 - 26 =
        (hdr ++ P ++ F).length := by
      simp [List.length_append, hdrLen]; try omega
    rw [harith, ← lLen]
    have := extract_at (hdr ++ P ++ F) L hdr
    simpa [List.append_assoc] using this
  rw [hxL]
  rw [hL, decodeLe_leN_of_lt (lt_256_pow8 hfl)]
  rw [if_pos (by rw [hlen]; omega)]
  have hxF : extract (hdr ++ P ++ F ++ L ++ hdr)
      ((hdr ++ P ++ F ++ L ++ hdr).length - 26 - F.length) F.length = F := by
    rw [hlen]
    have harith : 18 + P.length + F.length + 8 + 18 - 26 - F.length =
        (hdr ++ P).length := by
      simp [List.length_append, hdrLen]; try omega
    rw [harith]
    have := extract_at (hdr ++ P) F (L ++ hdr)
    simpa [List.append_assoc] using this
  rw [hxF]
  have hcount : F.length / feSize withFps = (footerOf 18 payloads mm).length := by
    rw [hF, footerBytes_length]
    exact Nat.mul_div_cancel _ (feSize_pos withFps)
  rw [hcount]
  have hparse : parseFooterEntries withFps (footerOf 18 payloads mm).length F =
      some (footerOf 18 payloads mm) := by
    rw [hF]
    exact parseFooterEntries_encode _ hfe
  rw [hparse]
  simp only
  have hread : readPages schema.encoding (hdr ++ P ++ F ++ L ++ hdr)
      (footerOf 18 payloads mm) = some payloads := by
    have := readPages_footerOf schema.encoding payloads hdr (F ++ L ++ hdr) mm hmm
    rw [hdrLen] at this
    simpa [List.append_assoc] using this
  rw [hread]

/-! ## Block, querier and round-trip (spec §4.6) -/

/-- Modelled from the spec: a loaded block — schema, parsed series pages,
the series-page index (for `Seek`), and the decompressed bloom pages. -/
structure ParsedBlock where
  schema : Schema
  seriesPages : List (List SeriesEntry)
  seriesFooter : List FooterEntry
  bloomPages : List (List Nat)
deriving DecidableEq, Repr

/-- Modelled from the spec: `LoadHeaders` plus the page loads of the two
streams of a block; a version mismatch or inconsistent schemas are fatal
(spec §4.6, §7). -/
def parseBlockStreams (ib bb : List Nat) : Option ParsedBlock :=
  match parseStream true ib with
  | none => none
  | some (s1, fes1, pls1) =>
    match parseStream false bb with
    | none => none
    | some (s2, _, pls2) =>
      if s1 = s2 then
        match pls1.mapM parseSeriesPage with
        | none => none
        | some spages => some ⟨s1, spages, fes1, pls2⟩
      else none

/-- The parsed form a successful build round-trips to. -/
def builtBlock (opts : BlockOptions) (S : List SeriesWithBloom) : ParsedBlock :=
  ⟨opts.schema, seriesPagesOf opts S, indexFooterOf opts S,
    (bloomPagesOf opts S).map List.flatten⟩

theorem mapM_map_id {α β : Type} (f : β → Option α) (g : α → β) (l : List α)
    (h : ∀ x ∈ l, f (g x) = some x) : (l.map g).mapM f = some l := by
  induction l with
  | nil => rfl
  | cons x t ih =>
    rw [List.map_cons, List.mapM_cons, h x (by simp),
      ih (fun y hy => h y (by simp [hy]))]
    rfl

theorem bloomPayloadsOf_eq (opts : BlockOptions) (S : List SeriesWithBloom) :
    bloomPayloadsOf opts S = (bloomPagesOf opts S).map List.flatten := by
  simp [bloomPayloadsOf, Codec.compress]

theorem seriesMetaOf_length (opts : BlockOptions) (S : List SeriesWithBloom) :
    (seriesMetaOf opts S).length = (seriesPayloadsOf opts S).length := by
  simp [seriesMetaOf, seriesPayloadsOf]

theorem bloomMetaOf_length (opts : BlockOptions) (S : List SeriesWithBloom) :
    (bloomMetaOf opts S).length = (bloomPayloadsOf opts S).length := by
  simp [bloomMetaOf, bloomPayloadsOf]

/-- Parsing a successfully built block recovers exactly the built pages. -/
theorem parseBlockStreams_build {opts : BlockOptions} {S : List SeriesWithBloom}
    (hs : schemaOk opts.schema) (hz : sizesOk opts S) :
    parseBlockStreams (indexBytesOf opts S) (bloomBytesOf opts S) =
      some (builtBlock opts S) := by
  obtain ⟨hfe1, hfe2, hfl1, hfl2⟩ := hz
  unfold parseBlockStreams indexBytesOf bloomBytesOf
  rw [parseStream_encode true (seriesPayloadsOf opts S) (seriesMetaOf opts S) hs
    (seriesMetaOf_length opts S) hfe1 hfl1]
  simp only
  rw [parseStream_encode false (bloomPayloadsOf opts S) (bloomMetaOf opts S) hs
    (bloomMetaOf_length opts S) hfe2 hfl2]
  simp only [eq_self_iff_true, if_true]
  have hmapm : (seriesPayloadsOf opts S).mapM parseSeriesPage =
      some (seriesPagesOf opts S) := by
    unfold seriesPayloadsOf
    exact mapM_map_id parseSeriesPage _ _
      (fun pg _ => by simp [Codec.compress, parseSeriesPage_encode])
  rw [hmapm]
  simp only
  rw [builtBlock, bloomPayloadsOf_eq]
  rfl

/-- Modelled from the spec: load the bloom referenced by a series entry —
locate its page, then its byte range inside the page (spec §4.6). -/
def readBloomAt (blk : ParsedBlock) (e : SeriesEntry) : Option Bloom :=
  match blk.bloomPages[e.bloomPage]? with
  | none => none
  | some pg => decodeBloom (extract pg e.bloomOff e.bloomLen)

def entrySWB (blk : ParsedBlock) (e : SeriesEntry) : Option SeriesWithBloom :=
  (readBloomAt blk e).map (fun b => ⟨⟨e.fingerprint, e.chunks⟩, b⟩)

def flatEntries (blk : ParsedBlock) : List SeriesEntry :=
  blk.seriesPages.flatten

/-- Modelled from the spec: the querier's remaining iteration from a
cursor position — each `Next` yields the series of the current entry and
its decoded bloom (spec §4.6). -/
def querierFrom (blk : ParsedBlock) (pos : Nat) : Option (List SeriesWithBloom) :=
  ((flatEntries blk).drop pos).mapM (entrySWB blk)

theorem mapM_entries (pages : List (List (List Nat))) (blk : ParsedBlock)
    (hbp : blk.bloomPages = pages.map List.flatten) :
    ∀ (S : List SeriesWithBloom) (addrs : List (Nat × Nat × List Nat)),
      addrs.map (fun a => a.2.2) = S.map (fun s => encodeBloom s.bloom) →
      (∀ a ∈ addrs, ∃ pg, pages[a.1]? = some pg ∧
        extract pg.flatten a.2.1 a.2.2.length = a.2.2) →
      (List.zipWith mkEntry S addrs).mapM (entrySWB blk) = some S := by
  intro S
  induction S with
  | nil => intro addrs _ _; rfl
  | cons s St ih =>
    intro addrs hthird haddr
    cases addrs with
    | nil => exact absurd hthird (by simp)
    | cons a at' =>
      simp only [List.map_cons, List.cons.injEq] at hthird
      obtain ⟨h3, h3t⟩ := hthird
      simp only [List.zipWith_cons_cons, List.mapM_cons]
      have hhead : entrySWB blk (mkEntry s a) = some s := by
        unfold entrySWB readBloomAt mkEntry
        obtain ⟨pg, hpg, hex⟩ := haddr a (by simp)
        simp only
        rw [hbp, List.getElem?_map, hpg]
        simp only [Option.map_some']
        rw [hex, h3, decodeBloom_encodeBloom]
        rfl
      rw [hhead, ih at' h3t (fun x hx => haddr x (by simp [hx]))]
      rfl

theorem addrsOf_thirds (opts : BlockOptions) (S : List SeriesWithBloom) :
    (addrsOf opts S).map (fun a => a.2.2) =
      S.map (fun s => encodeBloom s.bloom) := by
  unfold addrsOf bloomPagesOf
  rw [withAddrs_thirds, paginate_join]
  rfl

/-- Full iteration of a built block yields exactly the input sequence. -/
theorem querierFrom_built (opts : BlockOptions) (S : List SeriesWithBloom) :
    querierFrom (builtBlock opts S) 0 = some S := by
  unfold querierFrom flatEntries
  rw [List.drop_zero]
  show (seriesPagesOf opts S).flatten.mapM (entrySWB (builtBlock opts S)) = some S
  unfold seriesPagesOf
  rw [paginate_join]
  unfold entriesOf
  exact mapM_entries (bloomPagesOf opts S) (builtBlock opts S) rfl S (addrsOf opts S)
    (addrsOf_thirds opts S) (withAddrs_addr (bloomPagesOf opts S))

/-- Iteration after dropping `k` entries yields the input minus its first
`k` elements. -/
theorem querierFrom_built_drop (opts : BlockOptions) (S : List SeriesWithBloom)
    (k : Nat) :
    querierFrom (builtBlock opts S) k = some (S.drop k) := by
  unfold querierFrom flatEntries
  show ((seriesPagesOf opts S).flatten.drop k).mapM (entrySWB (builtBlock opts S)) =
    some (S.drop k)
  unfold seriesPagesOf
  rw [paginate_join]
  unfold entriesOf
  rw [List.drop_zipWith]
  refine mapM_entries (bloomPagesOf opts S) (builtBlock opts S) rfl (S.drop k)
    ((addrsOf opts S).drop k) ?_ ?_
  · rw [List.map_drop, List.map_drop, addrsOf_thirds]
  · intro a ha
    exact withAddrs_addr (bloomPagesOf opts S) a (List.mem_of_mem_drop ha)

/-! ## Seek (spec §4.6) -/

/-- Modelled from the spec: `Seek(fp)` — search the series-page index by
each page's `{min_fp, max_fp}` for the first page whose range can hold a
fingerprint `≥ fp`, then scan within that page; positions past every page
leave the querier exhausted (spec §4.6).  The cursor position is the
flattened entry index. -/
def seekPosAux (f : Nat) : List FooterEntry → List (List SeriesEntry) → Nat
  | [], _ => 0
  | _, [] => 0
  | fe :: fes, pg :: pgs =>
    if f ≤ fe.maxFp then pg.findIdx (fun e => decide (f ≤ e.fingerprint))
    else pg.length + seekPosAux f fes pgs

def seekPos (blk : ParsedBlock) (f : Nat) : Nat :=
  seekPosAux f blk.seriesFooter blk.seriesPages

theorem findIdx_eq_length_takeWhile_not {α : Type} (p : α → Bool) (l : List α) :
    l.findIdx p = (l.takeWhile (fun x => ! p x)).length := by
  induction l with
  | nil => rfl
  | cons a t ih =>
    by_cases h : p a
    · simp [List.findIdx_cons, List.takeWhile_cons, h]
    · simp [List.findIdx_cons, List.takeWhile_cons, h, ih]

theorem mem_fp_le_getLast {l : List SeriesEntry}
    (hs : l.Pairwise (fun a b => a.fingerprint ≤ b.fingerprint))
    {x : SeriesEntry} (hx : x ∈ l) (h : l ≠ []) :
    x.fingerprint ≤ (l.getLast h).fingerprint := by
  induction l with
  | nil => simp at hx
  | cons a t ih =>
    cases t with
    | nil =>
      simp at hx
      subst hx
      simp [List.getLast]
    | cons b t' =>
      rw [List.getLast_cons (by simp)]
      rcases List.mem_cons.mp hx with rfl | hx'
      · exact (List.pairwise_cons.mp hs).1 _ (List.getLast_mem _)
      · exact ih (List.pairwise_cons.mp hs).2 hx' (by simp)

theorem takeWhile_all {α : Type} (q : α → Bool) (l : List α) :
    (l.takeWhile q).length = l.length → ∀ x ∈ l, q x = true := by
  induction l with
  | nil => intro _ x hx; simp at hx
  | cons a t ih =>
    intro h x hx
    rw [List.takeWhile_cons] at h
    by_cases ha : q a
    · rw [if_pos ha] at h
      simp only [List.length_cons, Nat.add_right_cancel_iff] at h
      rcases List.mem_cons.mp hx with rfl | hx'
      · exact ha
      · exact ih h x hx'
    · rw [if_neg ha] at h
      simp at h

theorem takeWhile_of_all {α : Type} (q : α → Bool) (l : List α)
    (h : ∀ x ∈ l, q x = true) : l.takeWhile q = l := by
  induction l with
  | nil => rfl
  | cons a t ih =>
    rw [List.takeWhile_cons, if_pos (h a (by simp))]
    rw [ih (fun x hx => h x (by simp [hx]))]

theorem seekPosAux_takeWhile (f : Nat) :
    ∀ (pages : List (List SeriesEntry)) (fts : List FooterEntry),
      fts.map FooterEntry.maxFp =
        pages.map (fun pg => (pg.getLast?.map SeriesEntry.fingerprint).getD 0) →
      (∀ pg ∈ pages, pg ≠ []) →
      pages.flatten.Pairwise (fun a b => a.fingerprint ≤ b.fingerprint) →
      seekPosAux f fts pages =
        (pages.flatten.takeWhile (fun e => decide (e.fingerprint < f))).length := by
  intro pages
  induction pages with
  | nil =>
    intro fts hmap _ _
    simp at hmap
    subst hmap
    rfl
  | cons pg pgs ih =>
    intro fts hmap hne hsort
    cases fts with
    | nil => simp at hmap
    | cons fe fes =>
      simp only [List.map_cons, List.cons.injEq] at hmap
      obtain ⟨hfe, hmt⟩ := hmap
      have hpgne : pg ≠ [] := hne pg (by simp)
      have hlast : fe.maxFp = (pg.getLast hpgne).fingerprint := by
        rw [hfe, List.getLast?_eq_getLast pg hpgne]
        rfl
      simp only [List.flatten_cons] at hsort ⊢
      have hpgsort2 : pg.Pairwise (fun a b => a.fingerprint ≤ b.fingerprint) :=
        List.Pairwise.sublist (List.sublist_append_left pg pgs.flatten) hsort
      have hrestsort : pgs.flatten.Pairwise
          (fun a b => a.fingerprint ≤ b.fingerprint) :=
        List.Pairwise.sublist (List.sublist_append_right pg pgs.flatten) hsort
      have hpred : (fun e : SeriesEntry => ! decide (f ≤ e.fingerprint)) =
          (fun e : SeriesEntry => decide (e.fingerprint < f)) := by
        funext e
        by_cases h : f ≤ e.fingerprint
        · simp [h, Nat.not_lt.mpr h]
        · simp [h, Nat.lt_of_not_le h]
      unfold seekPosAux
      by_cases hf : f ≤ fe.maxFp
      · rw [if_pos hf, List.takeWhile_append]
        have hcond : ¬ ((pg.takeWhile
            (fun e => decide (e.fingerprint < f))).length = pg.length) := by
          intro hcontra
          have hall := takeWhile_all _ pg hcontra (pg.getLast hpgne)
            (List.getLast_mem hpgne)
          rw [decide_eq_true_eq] at hall
          rw [hlast] at hf
          omega
        rw [if_neg hcond, findIdx_eq_length_takeWhile_not, hpred]
      · rw [if_neg hf, List.takeWhile_append]
        have hfall : ∀ x ∈ pg, decide (x.fingerprint < f) = true := by
          intro x hx
          rw [decide_eq_true_eq]
          have hle := mem_fp_le_getLast hpgsort2 hx hpgne
          rw [hlast] at hf
          exact lt_of_le_of_lt hle (Nat.lt_of_not_le hf)
        have hcond : (pg.takeWhile
            (fun e => decide (e.fingerprint < f))).length = pg.length := by
          rw [takeWhile_of_all _ pg hfall]
        rw [if_pos hcond, List.length_append]
        rw [ih fes hmt (fun p hp => hne p (by simp [hp])) hrestsort]

theorem addrsOf_length (opts : BlockOptions) (S : List SeriesWithBloom) :
    (addrsOf opts S).length = S.length := by
  have h := addrsOf_thirds opts S
  have := congrArg List.length h
  simpa using this

theorem zipWith_mkEntry_fps :
    ∀ (S : List SeriesWithBloom) (addrs : List (Nat × Nat × List Nat)),
      S.length ≤ addrs.length →
      (List.zipWith mkEntry S addrs).map SeriesEntry.fingerprint = fpsOf S := by
  intro S
  induction S with
  | nil => intro addrs _; rfl
  | cons s St ih =>
    intro addrs hlen
    cases addrs with
    | nil => simp at hlen
    | cons a at' =>
      simp only [List.zipWith_cons_cons, List.map_cons]
      rw [ih at' (by simpa using hlen)]
      rfl

theorem entriesOf_fps (opts : BlockOptions) (S : List SeriesWithBloom) :
    (entriesOf opts S).map SeriesEntry.fingerprint = fpsOf S :=
  zipWith_mkEntry_fps S (addrsOf opts S) (by rw [addrsOf_length])

theorem footerOf_maxFps :
    ∀ (pls : List (List Nat)) (mm : List (Nat × Nat)) (start : Nat),
      pls.length = mm.length →
      (footerOf start pls mm).map FooterEntry.maxFp = mm.map Prod.snd := by
  intro pls
  induction pls with
  | nil =>
    intro mm start h
    cases mm with
    | nil => rfl
    | cons m mm' => simp at h
  | cons p ps ih =>
    intro mm start h
    cases mm with
    | nil => simp at h
    | cons m mm' =>
      simp only [footerOf, pagesWithOffsets, List.zipWith_cons_cons, List.map_cons]
      have := ih mm' (start + (p.length + 4)) (by simpa using h)
      unfold footerOf at this
      rw [this]

theorem indexFooter_maxFps (opts : BlockOptions) (S : List SeriesWithBloom) :
    (indexFooterOf opts S).map FooterEntry.maxFp =
      (seriesPagesOf opts S).map
        (fun pg => (pg.getLast?.map SeriesEntry.fingerprint).getD 0) := by
  unfold indexFooterOf
  rw [footerOf_maxFps _ _ _ (by simp [seriesPayloadsOf, seriesMetaOf])]
  unfold seriesMetaOf pageMinMax
  rw [List.map_map]
  rfl

theorem strictIncB_pairwise : ∀ l : List Nat, strictIncB l = true →
    l.Pairwise (· < ·) := by
  intro l
  induction l with
  | nil => intro _; exact List.Pairwise.nil
  | cons a t ih =>
    intro h
    cases t with
    | nil => simp
    | cons b t' =>
      unfold strictIncB at h
      rw [Bool.and_eq_true, decide_eq_true_eq] at h
      obtain ⟨hab, ht⟩ := h
      have hpt := ih ht
      refine List.Pairwise.cons ?_ hpt
      intro x hx
      rcases List.mem_cons.mp hx with rfl | hx'
      · exact hab
      · exact lt_trans hab ((List.pairwise_cons.mp hpt).1 x hx')

theorem drop_length_takeWhile {α : Type} (p : α → Bool) (l : List α) :
    l.drop (l.takeWhile p).length = l.dropWhile p := by
  induction l with
  | nil => rfl
  | cons a t ih =>
    rw [List.takeWhile_cons, List.dropWhile_cons]
    by_cases h : p a
    · simp [h, ih]
    · simp [h]

theorem takeWhile_fp_length (f : Nat) :
    ∀ (es : List SeriesEntry) (S : List SeriesWithBloom),
      es.map SeriesEntry.fingerprint = S.map (fun s => s.series.fingerprint) →
      (es.takeWhile (fun e => decide (e.fingerprint < f))).length =
        (S.takeWhile (fun s => decide (s.series.fingerprint < f))).length := by
  intro es
  induction es with
  | nil =>
    intro S h
    cases S with
    | nil => rfl
    | cons s St => simp at h
  | cons e et ih =>
    intro S h
    cases S with
    | nil => simp at h
    | cons s St =>
      simp only [List.map_cons, List.cons.injEq] at h
      obtain ⟨h1, h2⟩ := h
      rw [List.takeWhile_cons, List.takeWhile_cons, h1]
      by_cases hlt : s.series.fingerprint < f
      · rw [if_pos (by simpa using hlt), if_pos (by simpa using hlt)]
        simp only [List.length_cons]
        rw [ih St h2]
      · rw [if_neg (by simpa using hlt), if_neg (by simpa using hlt)]
        rfl

theorem filter_of_all_ge {f : Nat} : ∀ (l : List SeriesWithBloom),
    (∀ x ∈ l, f ≤ x.series.fingerprint) →
    l.filter (fun s => decide (f ≤ s.series.fingerprint)) = l := by
  intro l h
  rw [List.filter_eq_self]
  intro x hx
  rw [decide_eq_true_eq]
  exact h x hx

theorem dropWhile_lt_eq_filter (f : Nat) : ∀ (l : List SeriesWithBloom),
    l.Pairwise (fun a b => a.series.fingerprint ≤ b.series.fingerprint) →
    l.dropWhile (fun s => decide (s.series.fingerprint < f)) =
      l.filter (fun s => decide (f ≤ s.series.fingerprint)) := by
  intro l
  induction l with
  | nil => intro _; rfl
  | cons a t ih =>
    intro hp
    obtain ⟨hhead, htail⟩ := List.pairwise_cons.mp hp
    rw [List.dropWhile_cons, List.filter_cons]
    by_cases h : a.series.fingerprint < f
    · rw [if_pos (by simpa using h),
        if_neg (by simp only [decide_eq_true_eq]; exact Nat.not_le.mpr h)]
      exact ih htail
    · rw [if_neg (by simpa using h),
        if_pos (by simp only [decide_eq_true_eq]; exact Nat.le_of_not_lt h)]
      rw [filter_of_all_ge t (fun x hx => le_trans (Nat.le_of_not_lt h) (hhead x hx))]

/-- `Seek(f)` then iterating yields exactly the ascending-suffix
`{ s ∈ S : s.fingerprint ≥ f }`. -/
theorem seek_filter (opts : BlockOptions) (S : List SeriesWithBloom) (f : Nat)
    (hasc : strictIncB (fpsOf S) = true) :
    querierFrom (builtBlock opts S) (seekPos (builtBlock opts S) f) =
      some (S.filter (fun s => decide (f ≤ s.series.fingerprint))) := by
  have hpw : (fpsOf S).Pairwise (· < ·) := strictIncB_pairwise _ hasc
  have hpwS : S.Pairwise
      (fun a b => a.series.fingerprint ≤ b.series.fingerprint) := by
    have := (List.pairwise_map.mp hpw)
    exact this.imp (fun h => le_of_lt h)
  have hflat : (builtBlock opts S).seriesPages.flatten = entriesOf opts S := by
    show (seriesPagesOf opts S).flatten = entriesOf opts S
    unfold seriesPagesOf
    exact paginate_join _ _ _
  have hes : (entriesOf opts S).Pairwise
      (fun a b => a.fingerprint ≤ b.fingerprint) := by
    rw [← List.pairwise_map (f := SeriesEntry.fingerprint)]
    rw [entriesOf_fps]
    exact hpw.imp (fun h => le_of_lt h)
  have hk : seekPos (builtBlock opts S) f =
      ((entriesOf opts S).takeWhile (fun e => decide (e.fingerprint < f))).length := by
    unfold seekPos
    have := seekPosAux_takeWhile f (builtBlock opts S).seriesPages
      (builtBlock opts S).seriesFooter
      (by
        show (indexFooterOf opts S).map FooterEntry.maxFp = _
        exact indexFooter_maxFps opts S)
      (by
        show ∀ pg ∈ seriesPagesOf opts S, pg ≠ []
        exact paginate_ne_nil _ _ _)
      (by rw [hflat]; exact hes)
    rw [this, hflat]
  rw [hk, takeWhile_fp_length f (entriesOf opts S) S (entriesOf_fps opts S)]
  rw [querierFrom_built_drop opts S _]
  rw [drop_length_takeWhile, dropWhile_lt_eq_filter f S hpwS]

/-! ## Writer / reader backends (spec §4.4) -/

/-- Modelled from the spec: the memory-backed byte sink — two growable
byte buffers shared between writer and reader (spec §4.4). -/
structure MemBackend where
  indexBuf : List Nat
  bloomsBuf : List Nat
deriving DecidableEq, Repr

def NewMemoryBlockWriter (ib bb : List Nat) : MemBackend := ⟨ib, bb⟩

/-- Modelled from the spec: the matching memory reader. -/
def memRead (m : MemBackend) : Option (List Nat × List Nat) :=
  some (m.indexBuf, m.bloomsBuf)

/-- Modelled from the spec: fixed base names of the two block files under
the caller-provided directory (spec §6). -/
def seriesFileName : String := "series"

def bloomFileName : String := "bloom"

/-- Modelled from the spec: the directory-backed sink — two sibling files
with stable names (spec §4.4). -/
def DirBackend : Type := List (String × List Nat)

instance : DecidableEq DirBackend := by
  unfold DirBackend; infer_instance

def NewDirectoryBlockWriter (ib bb : List Nat) : DirBackend :=
  [(seriesFileName, ib), (bloomFileName, bb)]

/-- Modelled from the spec: the matching directory reader. -/
def dirRead (d : DirBackend) : Option (List Nat × List Nat) :=
  match List.lookup seriesFileName d, List.lookup bloomFileName d with
  | some ib, some bb => some (ib, bb)
  | _, _ => none

theorem memRead_write (ib bb : List Nat) :
    memRead (NewMemoryBlockWriter ib bb) = some (ib, bb) := rfl

theorem dirRead_write (ib bb : List Nat) :
    dirRead (NewDirectoryBlockWriter ib bb) = some (ib, bb) := by
  simp [dirRead, NewDirectoryBlockWriter, List.lookup, seriesFileName, bloomFileName]

/-- Build into a memory backend; returns the digest and the backend. -/
def buildMem (opts : BlockOptions) (S : List SeriesWithBloom) :
    Except BuildErr (Nat × MemBackend) :=
  (build opts S).map (fun r => (r.1, NewMemoryBlockWriter r.2.1 r.2.2))

/-- Build into a directory backend; returns the digest and the backend. -/
def buildDir (opts : BlockOptions) (S : List SeriesWithBloom) :
    Except BuildErr (Nat × DirBackend) :=
  (build opts S).map (fun r => (r.1, NewDirectoryBlockWriter r.2.1 r.2.2))

/-- Build, write to the memory backend, read back, load, iterate fully. -/
def roundTripMem (opts : BlockOptions) (S : List SeriesWithBloom) :
    Option (List SeriesWithBloom) :=
  match buildMem opts S with
  | .error _ => none
  | .ok (_, m) =>
    match memRead m with
    | none => none
    | some (ib, bb) =>
      match parseBlockStreams ib bb with
      | none => none
      | some blk => querierFrom blk 0

/-- Build, write to the directory backend, read back, load, iterate. -/
def roundTripDir (opts : BlockOptions) (S : List SeriesWithBloom) :
    Option (List SeriesWithBloom) :=
  match buildDir opts S with
  | .error _ => none
  | .ok (_, d) =>
    match dirRead d with
    | none => none
    | some (ib, bb) =>
      match parseBlockStreams ib bb with
      | none => none
      | some blk => querierFrom blk 0

/-- Build (memory backend), load, `Seek(f)`, then iterate to exhaustion. -/
def seekIterMem (opts : BlockOptions) (S : List SeriesWithBloom) (f : Nat) :
    Option (List SeriesWithBloom) :=
  match buildMem opts S with
  | .error _ => none
  | .ok (_, m) =>
    match memRead m with
    | none => none
    | some (ib, bb) =>
      match parseBlockStreams ib bb with
      | none => none
      | some blk => querierFrom blk (seekPos blk f)

/-- The fingerprint sequence of a traversal from a cursor position. -/
def fpSeqFrom (blk : ParsedBlock) (pos : Nat) : Option (List Nat) :=
  (querierFrom blk pos).map (List.map (fun s => s.series.fingerprint))

theorem build_ok_parts {opts : BlockOptions} {S : List SeriesWithBloom}
    {d : Nat} {ib bb : List Nat}
    (h : build opts S = .ok (d, ib, bb)) :
    schemaOk opts.schema ∧ strictIncB (fpsOf S) = true ∧ sizesOk opts S ∧
      d = digestOf opts S ∧ ib = indexBytesOf opts S ∧ bb = bloomBytesOf opts S := by
  unfold build at h
  split at h
  · split at h
    · split at h
      · simp only [Except.ok.injEq, Prod.mk.injEq] at h
        refine ⟨by assumption, by assumption, by assumption, h.1.symm, h.2.1.symm, h.2.2.symm⟩
      · exact absurd h (by simp)
    · exact absurd h (by simp)
  · exact absurd h (by simp)

theorem build_isOk_parts {opts : BlockOptions} {S : List SeriesWithBloom}
    (h : (build opts S).isOk = true) :
    build opts S = .ok (digestOf opts S, indexBytesOf opts S, bloomBytesOf opts S) := by
  unfold build at h ⊢
  split at h
  · split at h
    · split at h
      · rename_i h1 h2 h3
        rw [if_pos h1, if_pos h2, if_pos h3]
      · simp [Except.isOk, Except.toBool] at h
    · simp [Except.isOk, Except.toBool] at h
  · simp [Except.isOk, Except.toBool] at h

/-! ## Heap k-way merge (spec §4.1) -/

/-- Index and head fingerprint of the nonempty input holding the least
head fingerprint; ties break toward the lowest input index, the heap's
stability rule (spec §4.1). -/
def minHeadIdx : List (List SeriesWithBloom) → Option (Nat × Nat)
  | [] => none
  | [] :: rest => (minHeadIdx rest).map (fun p => (p.1 + 1, p.2))
  | (x :: _) :: rest =>
    match minHeadIdx rest with
    | none => some (0, x.series.fingerprint)
    | some (j, v) =>
      if v < x.series.fingerprint then some (j + 1, v)
      else some (0, x.series.fingerprint)

def sumLens (ls : List (List SeriesWithBloom)) : Nat :=
  (ls.map List.length).sum

/-- Modelled from the spec: the heap k-way merge over `k` iterators
ordered by fingerprint, ties broken by input index (spec §4.1); fuel is
the total element count, making the recursion structural. -/
def kmergeAux : Nat → List (List SeriesWithBloom) → List SeriesWithBloom
  | 0, _ => []
  | fuel + 1, ls =>
    match minHeadIdx ls with
    | none => []
    | some (i, _) =>
      match ls.getD i [] with
      | [] => []
      | x :: xs => x :: kmergeAux fuel (ls.set i xs)

def kmerge (ls : List (List SeriesWithBloom)) : List SeriesWithBloom :=
  kmergeAux (sumLens ls) ls

theorem minHeadIdx_none : ∀ ls, minHeadIdx ls = none → ∀ l ∈ ls, l = [] := by
  intro ls
  induction ls with
  | nil => intro _ l hl; simp at hl
  | cons hd rest ih =>
    intro h l hl
    cases hd with
    | nil =>
      have hrest : minHeadIdx rest = none := by
        unfold minHeadIdx at h
        cases hmr : minHeadIdx rest with
        | none => rfl
        | some p => rw [hmr] at h; simp at h
      rcases List.mem_cons.mp hl with rfl | hl'
      · rfl
      · exact ih hrest l hl'
    | cons x t =>
      unfold minHeadIdx at h
      cases hmr : minHeadIdx rest with
      | none => rw [hmr] at h; simp at h
      | some p =>
        rw [hmr] at h
        by_cases hv : p.2 < x.series.fingerprint <;> simp [hv] at h

theorem minHeadIdx_some : ∀ ls i v, minHeadIdx ls = some (i, v) →
    ∃ x xs, ls.getD i [] = x :: xs ∧ x.series.fingerprint = v := by
  intro ls
  induction ls with
  | nil => intro i v h; simp [minHeadIdx] at h
  | cons hd rest ih =>
    intro i v h
    cases hd with
    | nil =>
      unfold minHeadIdx at h
      cases hmr : minHeadIdx rest with
      | none => rw [hmr] at h; simp at h
      | some p =>
        obtain ⟨j, w⟩ := p
        rw [hmr] at h
        simp only [Option.map_some', Option.some.injEq, Prod.mk.injEq] at h
        obtain ⟨hi, hv⟩ := h
        subst hi
        subst hv
        obtain ⟨x, xs, hg, hfp⟩ := ih j w hmr
        exact ⟨x, xs, by rw [List.getD_cons_succ]; exact hg, hfp⟩
    | cons x t =>
      unfold minHeadIdx at h
      cases hmr : minHeadIdx rest with
      | none =>
        rw [hmr] at h
        simp only at h
        simp only [Option.some.injEq, Prod.mk.injEq] at h
        obtain ⟨hi, hv⟩ := h
        subst hi
        exact ⟨x, t, by rw [List.getD_cons_zero], hv⟩
      | some p =>
        obtain ⟨j, w⟩ := p
        rw [hmr] at h
        simp only at h
        by_cases hvx : w < x.series.fingerprint
        · rw [if_pos hvx] at h
          simp only [Option.some.injEq, Prod.mk.injEq] at h
          obtain ⟨hi, hv⟩ := h
          subst hi
          obtain ⟨y, ys, hg, hfp⟩ := ih j w hmr
          exact ⟨y, ys, by rw [List.getD_cons_succ]; exact hg, hfp.trans hv⟩
        · rw [if_neg hvx] at h
          simp only [Option.some.injEq, Prod.mk.injEq] at h
          obtain ⟨hi, hv⟩ := h
          subst hi
          exact ⟨x, t, by rw [List.getD_cons_zero], hv⟩

theorem minHeadIdx_min : ∀ ls i v, minHeadIdx ls = some (i, v) →
    ∀ l ∈ ls, ∀ y ys, l = y :: ys → v ≤ y.series.fingerprint := by
  intro ls
  induction ls with
  | nil => intro i v h; simp [minHeadIdx] at h
  | cons hd rest ih =>
    intro i v h l hl y ys hly
    cases hd with
    | nil =>
      unfold minHeadIdx at h
      cases hmr : minHeadIdx rest with
      | none => rw [hmr] at h; simp at h
      | some p =>
        obtain ⟨j, w⟩ := p
        rw [hmr] at h
        simp only [Option.map_some', Option.some.injEq, Prod.mk.injEq] at h
        obtain ⟨hi, hv⟩ := h
        rcases List.mem_cons.mp hl with rfl | hl'
        · simp at hly
        · rw [← hv]
          exact ih j w hmr l hl' y ys hly
    | cons x t =>
      unfold minHeadIdx at h
      cases hmr : minHeadIdx rest with
      | none =>
        rw [hmr] at h
        simp only at h
        simp only [Option.some.injEq, Prod.mk.injEq] at h
        obtain ⟨hi, hv⟩ := h
        rcases List.mem_cons.mp hl with rfl | hl'
        · injection hly with h1 h2
          subst h1
          rw [← hv]
        · have := minHeadIdx_none rest hmr l hl'
          rw [this] at hly
          simp at hly
      | some p =>
        obtain ⟨j, w⟩ := p
        rw [hmr] at h
        simp only at h
        by_cases hvx : w < x.series.fingerprint
        · rw [if_pos hvx] at h
          simp only [Option.some.injEq, Prod.mk.injEq] at h
          obtain ⟨hi, hv⟩ := h
          rcases List.mem_cons.mp hl with rfl | hl'
          · injection hly with h1 h2
            subst h1
            rw [← hv]
            exact le_of_lt hvx
          · rw [← hv]
            exact ih j w hmr l hl' y ys hly
        · rw [if_neg hvx] at h
          simp only [Option.some.injEq, Prod.mk.injEq] at h
          obtain ⟨hi, hv⟩ := h
          rcases List.mem_cons.mp hl with rfl | hl'
          · injection hly with h1 h2
            subst h1
            rw [← hv]
          · have hwy := ih j w hmr l hl' y ys hly
            rw [← hv]
            exact le_trans (Nat.le_of_not_lt hvx) hwy

theorem getD_ne_nil {α : Type} {ls : List (List α)} {i : Nat}
    (h : ls.getD i [] ≠ []) : i < ls.length := by
  by_contra hc
  rw [List.getD_eq_getElem?_getD, List.getElem?_eq_none (Nat.le_of_not_lt hc)] at h
  simp at h

theorem getD_eq_getElem {α : Type} {ls : List (List α)} {i : Nat}
    (h : i < ls.length) : ls.getD i [] = ls[i] := by
  rw [List.getD_eq_getElem?_getD, List.getElem?_eq_getElem h]
  rfl

theorem flatten_set_perm {α : Type} : ∀ (ls : List (List α)) (i : Nat) (x : α)
    (xs : List α), ls.getD i [] = x :: xs →
    ls.flatten.Perm (x :: (ls.set i xs).flatten) := by
  intro ls
  induction ls with
  | nil => intro i x xs h; simp [List.getD] at h
  | cons l rest ih =>
    intro i x xs h
    cases i with
    | zero =>
      rw [List.getD_cons_zero] at h
      subst h
      simp only [List.set_cons_zero, List.flatten_cons, List.cons_append]
      exact List.Perm.refl _
    | succ i' =>
      rw [List.getD_cons_succ] at h
      have hp := ih i' x xs h
      simp only [List.set_cons_succ, List.flatten_cons]
      exact (hp.append_left l).trans List.perm_middle

theorem sumLens_flatten (ls : List (List SeriesWithBloom)) :
    sumLens ls = ls.flatten.length := by
  rw [sumLens, List.length_flatten]

theorem sumLens_set {ls : List (List SeriesWithBloom)} {i : Nat}
    {x : SeriesWithBloom} {xs : List SeriesWithBloom}
    (hg : ls.getD i [] = x :: xs) :
    sumLens (ls.set i xs) + 1 = sumLens ls := by
  have hp := flatten_set_perm ls i x xs hg
  rw [sumLens_flatten, sumLens_flatten, hp.length_eq]
  simp

theorem kmergeAux_perm : ∀ fuel ls, sumLens ls ≤ fuel →
    (kmergeAux fuel ls).Perm ls.flatten := by
  intro fuel
  induction fuel with
  | zero =>
    intro ls h
    have h0 : ls.flatten.length = 0 := by
      rw [← sumLens_flatten]
      omega
    rw [List.length_eq_zero] at h0
    rw [h0]
    exact List.Perm.refl []
  | succ fuel ih =>
    intro ls h
    unfold kmergeAux
    cases hm : minHeadIdx ls with
    | none =>
      have hall := minHeadIdx_none ls hm
      rw [List.flatten_eq_nil_iff.mpr hall]
    | some p =>
      obtain ⟨i, v⟩ := p
      obtain ⟨x, xs, hg, hfp⟩ := minHeadIdx_some ls i v hm
      simp only
      rw [hg]
      have hperm := flatten_set_perm ls i x xs hg
      have hlen : sumLens (ls.set i xs) ≤ fuel := by
        have := sumLens_set hg
        omega
      exact ((ih (ls.set i xs) hlen).cons x).trans hperm.symm

theorem rel_head_le {l : List SeriesWithBloom} {y h0 : SeriesWithBloom}
    (hs : (h0 :: l).Pairwise (fun a b => a.series.fingerprint ≤ b.series.fingerprint))
    (hy : y ∈ h0 :: l) : h0.series.fingerprint ≤ y.series.fingerprint := by
  rcases List.mem_cons.mp hy with rfl | hy'
  · exact le_refl _
  · exact (List.pairwise_cons.mp hs).1 y hy'

theorem kmergeAux_sorted : ∀ fuel ls, sumLens ls ≤ fuel →
    (∀ l ∈ ls, l.Pairwise (fun a b => a.series.fingerprint ≤ b.series.fingerprint)) →
    (kmergeAux fuel ls).Pairwise
      (fun a b => a.series.fingerprint ≤ b.series.fingerprint) := by
  intro fuel
  induction fuel with
  | zero => intro ls _ _; exact List.Pairwise.nil
  | succ fuel ih =>
    intro ls h hsort
    unfold kmergeAux
    cases hm : minHeadIdx ls with
    | none => exact List.Pairwise.nil
    | some p =>
      obtain ⟨i, v⟩ := p
      obtain ⟨x, xs, hg, hfp⟩ := minHeadIdx_some ls i v hm
      simp only
      rw [hg]
      have hi : i < ls.length := getD_ne_nil (by rw [hg]; simp)
      have hmem_i : (x :: xs) ∈ ls := by
        rw [← hg, getD_eq_getElem hi]
        exact List.getElem_mem hi
      have hlen : sumLens (ls.set i xs) ≤ fuel := by
        have := sumLens_set hg
        omega
      have hsort_set : ∀ l ∈ ls.set i xs,
          l.Pairwise (fun a b => a.series.fingerprint ≤ b.series.fingerprint) := by
        intro l hl
        rcases List.mem_or_eq_of_mem_set hl with hl' | rfl
        · exact hsort l hl'
        · exact (List.pairwise_cons.mp (hsort _ hmem_i)).2
      refine List.Pairwise.cons ?_ (ih _ hlen hsort_set)
      intro y hy
      have hyf : y ∈ (ls.set i xs).flatten :=
        (kmergeAux_perm fuel _ hlen).subset hy
      rw [List.mem_flatten] at hyf
      obtain ⟨l', hl', hyl⟩ := hyf
      rcases List.mem_or_eq_of_mem_set hl' with hl'' | rfl
      · cases l' with
        | nil => simp at hyl
        | cons h0 t0 =>
          have hv := minHeadIdx_min ls i v hm _ hl'' h0 t0 rfl
          have hh0y := rel_head_le (hsort _ hl'') hyl
          calc x.series.fingerprint = v := hfp
          _ ≤ h0.series.fingerprint := hv
          _ ≤ y.series.fingerprint := hh0y
      · exact (List.pairwise_cons.mp (hsort _ hmem_i)).1 y hyl

theorem kmerge_perm (ls : List (List SeriesWithBloom)) :
    (kmerge ls).Perm ls.flatten :=
  kmergeAux_perm (sumLens ls) ls (le_refl _)

theorem kmerge_sorted (ls : List (List SeriesWithBloom))
    (h : ∀ l ∈ ls, l.Pairwise (fun a b => a.series.fingerprint ≤ b.series.fingerprint)) :
    (kmerge ls).Pairwise (fun a b => a.series.fingerprint ≤ b.series.fingerprint) :=
  kmergeAux_sorted (sumLens ls) ls (le_refl _) h

/-! ## Merge builder (spec §4.7) -/

/-- Block-only fingerprints strictly below the truth's next fingerprint
are dropped from the merged stream (spec §4.7). -/
def heapSkip (fp : Nat) (heap : List SeriesWithBloom) : List SeriesWithBloom :=
  heap.dropWhile (fun s => decide (s.series.fingerprint < fp))

/-- The run of heap entries sharing the truth's next fingerprint. -/
def heapHere (fp : Nat) (heap : List SeriesWithBloom) : List SeriesWithBloom :=
  (heapSkip fp heap).takeWhile (fun s => decide (s.series.fingerprint = fp))

/-- The heap minus everything at or below the truth's next fingerprint. -/
def heapRest (fp : Nat) (heap : List SeriesWithBloom) : List SeriesWithBloom :=
  (heapSkip fp heap).dropWhile (fun s => decide (s.series.fingerprint = fp))

/-- Modelled from the spec: chunk reconciliation at an equal fingerprint —
the truth's chunk list wins, additional chunks from blocks are unioned
(spec §4.7). -/
def chunkUnion (truth : List ChunkRef) (extra : List ChunkRef) : List ChunkRef :=
  truth ++ extra.filter (fun c => decide (c ∉ truth))

/-- Modelled from the spec: the merge-builder walk over the store truth
and the heap-merged block stream in lockstep (spec §4.7): heap entries
below the truth fingerprint are dropped; at a match, all heap entries at
that fingerprint are folded (chunks unioned, first entry's bloom taken);
at a gap, a fresh bloom is filled by the populate callback, whose error
aborts the walk. -/
def mergeSeq {E : Type} (pop : Series → Except E Bloom) :
    List Series → List SeriesWithBloom → Except E (List SeriesWithBloom)
  | [], _ => .ok []
  | t :: ts, heap =>
    match heapHere t.fingerprint heap with
    | [] =>
      match pop t with
      | .error e => .error e
      | .ok b =>
        match mergeSeq pop ts (heapRest t.fingerprint heap) with
        | .error e => .error e
        | .ok out => .ok (⟨t, b⟩ :: out)
    | h :: _ =>
      match mergeSeq pop ts (heapRest t.fingerprint heap) with
      | .error e => .error e
      | .ok out =>
        .ok (⟨⟨t.fingerprint,
          ((heapHere t.fingerprint heap).map (fun s => s.series.chunks)).foldl
            chunkUnion t.chunks⟩, h.bloom⟩ :: out)

inductive MergeErr (E : Type) where
  | populate (e : E)
  | build (e : BuildErr)
deriving DecidableEq, Repr

/-- Modelled from the spec: the merge builder — heap-merge the block
streams, reconcile against the store truth, feed the result into a fresh
builder, and return whatever the builder returns (spec §4.7). -/
def mergeBuild {E : Type} (opts : BlockOptions)
    (blocks : List (List SeriesWithBloom)) (truth : List Series)
    (pop : Series → Except E Bloom) :
    Except (MergeErr E) (Nat × List Nat × List Nat) :=
  match mergeSeq pop truth (kmerge blocks) with
  | .error e => .error (.populate e)
  | .ok out =>
    match build opts out with
    | .error e => .error (.build e)
    | .ok r => .ok r

/-- Each successful merge step emits exactly one entry per truth series,
carrying the truth's fingerprint. -/
theorem mergeSeq_fps {E : Type} (pop : Series → Except E Bloom) :
    ∀ (truth : List Series) (heap out : List SeriesWithBloom),
      mergeSeq pop truth heap = .ok out →
      out.map (fun s => s.series.fingerprint) = truth.map Series.fingerprint := by
  intro truth
  induction truth with
  | nil =>
    intro heap out h
    simp only [mergeSeq, Except.ok.injEq] at h
    subst h
    rfl
  | cons t ts ih =>
    intro heap out h
    unfold mergeSeq at h
    split at h
    · split at h
      · exact absurd h (by simp)
      · split at h
        · exact absurd h (by simp)
        · rename_i b hpop out' hrec
          simp only [Except.ok.injEq] at h
          subst h
          simp only [List.map_cons]
          rw [ih _ _ hrec]
    · split at h
      · exact absurd h (by simp)
      · rename_i h0 hs0 out' hrec
        simp only [Except.ok.injEq] at h
        subst h
        simp only [List.map_cons]
        rw [ih _ _ hrec]

theorem mem_dropWhile_of_pred_false {α : Type} (p : α → Bool) :
    ∀ (l : List α) (x : α), x ∈ l → p x = false → x ∈ l.dropWhile p := by
  intro l
  induction l with
  | nil => intro x hx _; simp at hx
  | cons a t ih =>
    intro x hx hpx
    rw [List.dropWhile_cons]
    by_cases hpa : p a
    · rw [if_pos hpa]
      rcases List.mem_cons.mp hx with rfl | hx'
      · rw [hpa] at hpx; simp at hpx
      · exact ih x hx' hpx
    · rw [if_neg hpa]
      exact hx

theorem dropWhile_head_false {α : Type} (p : α → Bool) :
    ∀ (l : List α) (y : α) (ys : List α), l.dropWhile p = y :: ys → p y = false := by
  intro l
  induction l with
  | nil => intro y ys h; simp at h
  | cons a t ih =>
    intro y ys h
    rw [List.dropWhile_cons] at h
    by_cases hpa : p a
    · rw [if_pos hpa] at h
      exact ih y ys h
    · rw [if_neg hpa] at h
      injection h with h1 _
      subst h1
      simpa using hpa

theorem heapSkip_sublist (fp : Nat) (heap : List SeriesWithBloom) :
    (heapSkip fp heap).Sublist heap :=
  List.dropWhile_sublist _

theorem heapHere_sublist (fp : Nat) (heap : List SeriesWithBloom) :
    (heapHere fp heap).Sublist heap :=
  (List.takeWhile_sublist _).trans (heapSkip_sublist fp heap)

theorem heapRest_sublist (fp : Nat) (heap : List SeriesWithBloom) :
    (heapRest fp heap).Sublist heap :=
  (List.dropWhile_sublist _).trans (heapSkip_sublist fp heap)

/-- If a sorted heap holds the fingerprint, the run at that fingerprint is
nonempty — the populate callback is not invoked for it. -/
theorem heapHere_ne_nil {heap : List SeriesWithBloom} {fp : Nat}
    (hsort : heap.Pairwise (fun a b => a.series.fingerprint ≤ b.series.fingerprint))
    (hmem : ∃ x ∈ heap, x.series.fingerprint = fp) :
    heapHere fp heap ≠ [] := by
  obtain ⟨x, hx, hfp⟩ := hmem
  have hxs : x ∈ heapSkip fp heap :=
    mem_dropWhile_of_pred_false _ heap x hx (by simp [hfp])
  cases hskip : heapSkip fp heap with
  | nil => rw [hskip] at hxs; simp at hxs
  | cons y ys =>
    have hy1 : ¬ y.series.fingerprint < fp := by
      have := dropWhile_head_false _ heap y ys hskip
      simpa using this
    have hysort : (y :: ys).Pairwise
        (fun a b => a.series.fingerprint ≤ b.series.fingerprint) := by
      rw [← hskip]
      exact List.Pairwise.sublist (heapSkip_sublist fp heap) hsort
    have hy2 : y.series.fingerprint ≤ x.series.fingerprint := by
      rw [hskip] at hxs
      exact rel_head_le hysort hxs
    have hyfp : y.series.fingerprint = fp :=
      le_antisymm (hfp ▸ hy2) (Nat.le_of_not_lt hy1)
    unfold heapHere
    rw [hskip, List.takeWhile_cons, if_pos (by simp [hyfp])]
    simp

/-- Fingerprints strictly above the current truth fingerprint survive into
the remaining heap. -/
theorem mem_fps_heapRest {heap : List SeriesWithBloom} {fp g : Nat}
    (hg : fp < g) (hmem : ∃ x ∈ heap, x.series.fingerprint = g) :
    ∃ x ∈ heapRest fp heap, x.series.fingerprint = g := by
  obtain ⟨x, hx, hx2⟩ := hmem
  refine ⟨x, ?_, hx2⟩
  unfold heapRest heapSkip
  apply mem_dropWhile_of_pred_false
  · apply mem_dropWhile_of_pred_false _ _ _ hx
    rw [decide_eq_false_iff_not, hx2]
    exact Nat.lt_asymm hg
  · rw [decide_eq_false_iff_not, hx2]
    exact ne_of_gt hg

/-- When every truth fingerprint occurs in the (sorted) heap, the merge
walk succeeds — the populate callback is never consulted. -/
theorem mergeSeq_ok_of_covered {E : Type} (pop : Series → Except E Bloom) :
    ∀ (truth : List Series) (heap : List SeriesWithBloom),
      truth.Pairwise (fun a b => a.fingerprint < b.fingerprint) →
      heap.Pairwise (fun a b => a.series.fingerprint ≤ b.series.fingerprint) →
      (∀ t ∈ truth, ∃ x ∈ heap, x.series.fingerprint = t.fingerprint) →
      (mergeSeq pop truth heap).isOk = true := by
  intro truth
  induction truth with
  | nil => intro heap _ _ _; rfl
  | cons t ts ih =>
    intro heap htruth hsort hcov
    unfold mergeSeq
    have hne := heapHere_ne_nil hsort (hcov t (by simp))
    cases hh : heapHere t.fingerprint heap with
    | nil => exact absurd hh hne
    | cons h0 hs0 =>
      have hrs : (heapRest t.fingerprint heap).Pairwise
          (fun a b => a.series.fingerprint ≤ b.series.fingerprint) :=
        List.Pairwise.sublist (heapRest_sublist _ _) hsort
      have hcov' : ∀ t' ∈ ts, ∃ x ∈ heapRest t.fingerprint heap,
          x.series.fingerprint = t'.fingerprint := by
        intro t' ht'
        have hlt : t.fingerprint < t'.fingerprint :=
          (List.pairwise_cons.mp htruth).1 t' ht'
        exact mem_fps_heapRest hlt (hcov t' (by simp [ht']))
      have hok := ih (heapRest t.fingerprint heap)
        (List.pairwise_cons.mp htruth).2 hrs hcov'
      cases hrec : mergeSeq pop ts (heapRest t.fingerprint heap) with
      | error e =>
        rw [hrec] at hok
        simp [Except.isOk, Except.toBool] at hok
      | ok out => rfl

/-- When some truth fingerprint is absent from the (sorted) heap and the
populate callback always fails, the walk aborts with that error. -/
theorem mergeSeq_error_uncovered {E : Type} (e : E) :
    ∀ (truth : List Series) (heap : List SeriesWithBloom),
      truth.Pairwise (fun a b => a.fingerprint < b.fingerprint) →
      heap.Pairwise (fun a b => a.series.fingerprint ≤ b.series.fingerprint) →
      (∃ t ∈ truth, ∀ x ∈ heap, x.series.fingerprint ≠ t.fingerprint) →
      mergeSeq (fun _ => .error e) truth heap = .error e := by
  intro truth
  induction truth with
  | nil => intro heap _ _ hex; simp at hex
  | cons t ts ih =>
    intro heap htruth hsort hex
    by_cases hcovt : ∃ x ∈ heap, x.series.fingerprint = t.fingerprint
    · obtain ⟨t0, ht0, hunc⟩ := hex
      have ht0ts : t0 ∈ ts := by
        rcases List.mem_cons.mp ht0 with rfl | h
        · obtain ⟨x, hx, hfx⟩ := hcovt
          exact absurd hfx (hunc x hx)
        · exact h
      unfold mergeSeq
      cases hh : heapHere t.fingerprint heap with
      | nil => exact absurd hh (heapHere_ne_nil hsort hcovt)
      | cons h0 hs0 =>
        have hrec := ih (heapRest t.fingerprint heap)
          (List.pairwise_cons.mp htruth).2
          (List.Pairwise.sublist (heapRest_sublist _ _) hsort)
          ⟨t0, ht0ts, fun x hx =>
            hunc x ((heapRest_sublist _ _).mem hx |> fun h => h)⟩
        rw [hrec]
    · have hh : heapHere t.fingerprint heap = [] := by
        cases hh0 : heapHere t.fingerprint heap with
        | nil => rfl
        | cons y ys =>
          have hy : y ∈ heapHere t.fingerprint heap := by rw [hh0]; simp
          have hyfp : y.series.fingerprint = t.fingerprint := by
            have := List.mem_takeWhile_imp hy
            simpa using this
          have hymem : y ∈ heap := (heapHere_sublist _ _).mem hy
          exact absurd ⟨y, hymem, hyfp⟩ hcovt
      unfold mergeSeq
      rw [hh]

/-! ## Bloom-gateway querier (spec §4.8) -/

/-- Modelled from the spec: a chunk reference as the bloom querier sees it
(`logproto.ChunkRef`): fingerprint, tenant, time interval, checksum. -/
structure ChunkRefGW where
  fingerprint : Nat
  userID : Nat
  fromMs : Nat
  throughMs : Nat
  checksum : Nat
deriving DecidableEq, Repr

/-- Modelled from the spec: the query plan as the bloom querier consumes
it — only its line-filter predicates matter (spec §4.8). -/
structure QueryPlan where
  lineFilters : List (List Nat)
deriving DecidableEq, Repr

def dayMs : Nat := 86400000

/-- The UTC day index of a millisecond timestamp. -/
def dayOf (t : Nat) : Nat := t / dayMs

/-- Modelled from the spec: the UTC days overlapping `[from, through]`
(spec §4.8). -/
def daysOverlapping (f t : Nat) : List Nat :=
  List.range' (dayOf f) (dayOf t - dayOf f + 1)

/-- The chunk refs whose interval overlaps a UTC day. -/
def refsForDay (d : Nat) (refs : List ChunkRefGW) : List ChunkRefGW :=
  refs.filter (fun r =>
    decide (r.fromMs < (d + 1) * dayMs) && decide (d * dayMs ≤ r.throughMs))

/-- The transport-layer filter client, abstract: a function from a day
interval and refs to filtered refs or an error (spec §4.8). -/
def Client (E : Type) : Type :=
  Nat → Nat → List ChunkRefGW → Except E (List ChunkRefGW)

def filterStep {E : Type} (client : Client E) (refs : List ChunkRefGW)
    (acc : Except E (List ChunkRefGW × Nat)) (d : Nat) :
    Except E (List ChunkRefGW × Nat) :=
  match acc with
  | .error e => .error e
  | .ok (out, n) =>
    match client (d * dayMs) ((d + 1) * dayMs - 1) (refsForDay d refs) with
    | .error e => .error e
    | .ok res => .ok (out ++ res, n + 1)

/-- Modelled from the spec: `FilterChunkRefs` — return the input unchanged
without consulting the client when the chunk-ref list is empty or the plan
carries no line-filter predicates; otherwise one client call per UTC day
overlapping `[from, through]`, an error cancelling the remaining calls
(spec §4.8).  The second result component counts client invocations. -/
def FilterChunkRefs {E : Type} (client : Client E) (f t : Nat)
    (refs : List ChunkRefGW) (plan : QueryPlan) :
    Except E (List ChunkRefGW × Nat) :=
  if refs.isEmpty || plan.lineFilters.isEmpty then .ok (refs, 0)
  else (daysOverlapping f t).foldl (filterStep client refs) (.ok ([], 0))

theorem filterStep_error {E : Type} (client : Client E) (refs : List ChunkRefGW)
    (e : E) : ∀ ds : List Nat,
    ds.foldl (filterStep client refs) (.error e) = .error e := by
  intro ds
  induction ds with
  | nil => rfl
  | cons d ds ih => simpa [filterStep] using ih

theorem filterFold_count {E : Type} (client : Client E) (refs : List ChunkRefGW) :
    ∀ (ds : List Nat) (acc : List ChunkRefGW) (k : Nat)
      (out : List ChunkRefGW) (n : Nat),
      ds.foldl (filterStep client refs) (.ok (acc, k)) = .ok (out, n) →
      n = k + ds.length := by
  intro ds
  induction ds with
  | nil =>
    intro acc k out n h
    simp only [List.foldl_nil, Except.ok.injEq, Prod.mk.injEq] at h
    obtain ⟨h1, h2⟩ := h
    subst h2
    rw [List.length_nil, Nat.add_zero]
  | cons d ds ih =>
    intro acc k out n h
    rw [List.foldl_cons] at h
    cases hc : client (d * dayMs) ((d + 1) * dayMs - 1) (refsForDay d refs) with
    | error e =>
      rw [show filterStep client refs (.ok (acc, k)) d = .error e from by
        unfold filterStep; rw [hc]] at h
      rw [filterStep_error] at h
      exact absurd h (by simp)
    | ok res =>
      rw [show filterStep client refs (.ok (acc, k)) d = .ok (acc ++ res, k + 1) from by
        unfold filterStep; rw [hc]] at h
      have := ih (acc ++ res) (k + 1) out n h
      rw [List.length_cons]
      omega

/-! ## Digest counterexample inputs

Two single-series inputs that differ only in the series fingerprint yet
produce equal block digests: the 32-bit page CRC collides on the two
serialized index pages, so every digest input byte coincides. -/

def cexOpts : BlockOptions := ⟨⟨1, Codec.encNone, 0, 0⟩, 100, 100⟩

def cexFp1 : Nat := 72057594037927936

def cexFp2 : Nat := 72057595708988198

def cexInput (fp : Nat) : List SeriesWithBloom := [⟨⟨fp, []⟩, ⟨[0]⟩⟩]

/-! ## Helper corollaries for the claims -/

theorem roundTripMem_eq (opts : BlockOptions) (S : List SeriesWithBloom)
    (hok : (build opts S).isOk = true) : roundTripMem opts S = some S := by
  have hb := build_isOk_parts hok
  obtain ⟨hs, hstrict, hz, -, -, -⟩ := build_ok_parts hb
  unfold roundTripMem buildMem
  rw [hb]
  simp only [Except.map]
  rw [show memRead (NewMemoryBlockWriter (indexBytesOf opts S) (bloomBytesOf opts S)) =
    some (indexBytesOf opts S, bloomBytesOf opts S) from rfl]
  simp only
  rw [parseBlockStreams_build hs hz]
  simp only
  exact querierFrom_built opts S

theorem roundTripDir_eq (opts : BlockOptions) (S : List SeriesWithBloom)
    (hok : (build opts S).isOk = true) : roundTripDir opts S = some S := by
  have hb := build_isOk_parts hok
  obtain ⟨hs, hstrict, hz, -, -, -⟩ := build_ok_parts hb
  unfold roundTripDir buildDir
  rw [hb]
  simp only [Except.map]
  rw [dirRead_write]
  simp only
  rw [parseBlockStreams_build hs hz]
  simp only
  exact querierFrom_built opts S

theorem seekIterMem_eq (opts : BlockOptions) (S : List SeriesWithBloom) (f : Nat)
    (hasc : strictIncB (fpsOf S) = true)
    (hok : (build opts S).isOk = true) :
    seekIterMem opts S f =
      some (S.filter (fun s => decide (f ≤ s.series.fingerprint))) := by
  have hb := build_isOk_parts hok
  obtain ⟨hs, hstrict, hz, -, -, -⟩ := build_ok_parts hb
  unfold seekIterMem buildMem
  rw [hb]
  simp only [Except.map]
  rw [show memRead (NewMemoryBlockWriter (indexBytesOf opts S) (bloomBytesOf opts S)) =
    some (indexBytesOf opts S, bloomBytesOf opts S) from rfl]
  simp only
  rw [parseBlockStreams_build hs hz]
  simp only
  exact seek_filter opts S f hasc

/-- Fingerprints of the first full traversal of a freshly loaded block. -/
def firstPassFps (opts : BlockOptions) (S : List SeriesWithBloom) :
    Option (List Nat) :=
  match buildMem opts S with
  | .error _ => none
  | .ok (_, m) =>
    match memRead m with
    | none => none
    | some (ib, bb) =>
      match parseBlockStreams ib bb with
      | none => none
      | some blk => fpSeqFrom blk 0

/-- Fingerprints of the second traversal, taken after `Seek(0)`. -/
def secondPassFps (opts : BlockOptions) (S : List SeriesWithBloom) :
    Option (List Nat) :=
  match buildMem opts S with
  | .error _ => none
  | .ok (_, m) =>
    match memRead m with
    | none => none
    | some (ib, bb) =>
      match parseBlockStreams ib bb with
      | none => none
      | some blk => fpSeqFrom blk (seekPos blk 0)

/-- Fingerprints observed when iterating the block a merge build wrote. -/
def mergeBuildFps {E : Type} (opts : BlockOptions)
    (blocks : List (List SeriesWithBloom)) (truth : List Series)
    (pop : Series → Except E Bloom) : Option (List Nat) :=
  match mergeBuild opts blocks truth pop with
  | .error _ => none
  | .ok (_, ib, bb) =>
    match parseBlockStreams ib bb with
    | none => none
    | some blk => fpSeqFrom blk 0

end LokiBloom

namespace AsyncStorage

/-! ## AsyncStore chunk-dedup (translated from src/pkg/storage/async_store.go)

The store's chunk type and external-key formatting live in packages the
merge path only calls into; the external key string is an injective
rendering of `(userID, fingerprint, from, through, checksum)`, so the key
is modelled as that tuple and `chunk.ParseExternalKey` as its (total)
inverse. -/

/-- A chunk reference: the fields rendered into its external key. -/
structure ChunkRef where
  userID : Nat
  fingerprint : Nat
  fromMs : Nat
  throughMs : Nat
  checksum : Nat
deriving DecidableEq, Repr

/-- The external key (`SchemaConfig.ExternalKey`), modelled as the tuple
the key string injectively renders. -/
def ExternalKey : Type := Nat × Nat × Nat × Nat × Nat

instance : DecidableEq ExternalKey := by
  unfold ExternalKey; infer_instance

def extKey (c : ChunkRef) : ExternalKey :=
  (c.userID, c.fingerprint, c.fromMs, c.throughMs, c.checksum)

/-- `chunk.ParseExternalKey`, total on structured keys. -/
def ParseExternalKey (k : ExternalKey) : ChunkRef :=
  ⟨k.1, k.2.1, k.2.2.1, k.2.2.2.1, k.2.2.2.2⟩

theorem extKey_parse (k : ExternalKey) : extKey (ParseExternalKey k) = k := rfl

/-- `filterDuplicateChunks` (async_store.go:258): collect the store
chunks' external keys as `seen`, then keep each ingester chunk id only if
unseen, marking it seen — dropping both ids already in the store and
repeated ingester ids. -/
def filterDuplicateChunks (storeChunks : List (List ChunkRef))
    (ingesterChunkIDs : List ExternalKey) : List ExternalKey :=
  (ingesterChunkIDs.foldl
    (fun acc id => if id ∈ acc.2 then acc else (acc.1 ++ [id], id :: acc.2))
    (([] : List ExternalKey), storeChunks.flatten.map extKey)).1

abbrev Fetcher := Nat

inductive StoreErr where
  | nilFetcher
deriving DecidableEq, Repr

/-- The `fetcherToChunksGroupIdx` map, built like the Go map literal:
later inserts shadow earlier ones. -/
def initIdx (fetchers : List Fetcher) : List (Fetcher × Nat) :=
  fetchers.enum.foldl (fun m p => (p.2, p.1) :: m) []

def appendAt (groups : List (List ChunkRef)) (i : Nat) (c : ChunkRef) :
    List (List ChunkRef) :=
  groups.set i (groups.getD i [] ++ [c])

structure MergeState where
  groups : List (List ChunkRef)
  fetchers : List Fetcher
  idx : List (Fetcher × Nat)

/-- One iteration of the loop in `mergeIngesterAndStoreChunks`
(async_store.go:233-253): parse the ingester chunk id, look up its
fetcher, append the chunk to that fetcher's group — creating a fresh
group and index entry for a new fetcher — and fail on a nil fetcher. -/
def mergeStep (getFetcher : Nat → Option Fetcher) (st : MergeState)
    (id : ExternalKey) : Except StoreErr MergeState :=
  let chk := ParseExternalKey id
  match getFetcher chk.throughMs with
  | none => .error .nilFetcher
  | some f =>
    match List.lookup f st.idx with
    | some i => .ok ⟨appendAt st.groups i chk, st.fetchers, st.idx⟩
    | none =>
      .ok ⟨st.groups ++ [[chk]], st.fetchers ++ [f],
        (f, st.fetchers.length) :: st.idx⟩

/-- `AsyncStore.mergeIngesterAndStoreChunks` (async_store.go:223). -/
def mergeIngesterAndStoreChunks (getFetcher : Nat → Option Fetcher)
    (storeChunks : List (List ChunkRef)) (fetchers : List Fetcher)
    (ingesterChunkIDs : List ExternalKey) :
    Except StoreErr (List (List ChunkRef) × List Fetcher) :=
  ((filterDuplicateChunks storeChunks ingesterChunkIDs).foldlM
    (mergeStep getFetcher)
    ⟨storeChunks, fetchers, initIdx fetchers⟩).map
    (fun st => (st.groups, st.fetchers))

/-- `AsyncStore.GetChunkRefs` (async_store.go:66), modelled at the point
where both concurrent fetches (store and ingester) have returned
successfully: with zero ingester chunk ids the store's groups and
fetchers are returned unchanged, otherwise the merge runs. -/
def GetChunkRefs (getFetcher : Nat → Option Fetcher)
    (storeChunks : List (List ChunkRef)) (fetchers : List Fetcher)
    (ingesterChunks : List ExternalKey) :
    Except StoreErr (List (List ChunkRef) × List Fetcher) :=
  if ingesterChunks.length = 0 then .ok (storeChunks, fetchers)
  else mergeIngesterAndStoreChunks getFetcher storeChunks fetchers ingesterChunks

/-- The dedup filter's output: no duplicates, nothing already in the
store, and every id seen from the start stays excluded. -/
theorem filterDuplicateChunks_aux :
    ∀ (ids : List ExternalKey) (acc seen : List ExternalKey),
      acc.Nodup → (∀ a ∈ acc, a ∈ seen) →
      ((ids.foldl
        (fun acc id => if id ∈ acc.2 then acc else (acc.1 ++ [id], id :: acc.2))
        (acc, seen)).1.Nodup ∧
       ∀ a ∈ (ids.foldl
        (fun acc id => if id ∈ acc.2 then acc else (acc.1 ++ [id], id :: acc.2))
        (acc, seen)).1, a ∈ acc ∨ a ∉ seen) := by
  intro ids
  induction ids with
  | nil =>
    intro acc seen hnd hsub
    exact ⟨hnd, fun a ha => .inl ha⟩
  | cons id rest ih =>
    intro acc seen hnd hsub
    rw [List.foldl_cons]
    by_cases hmem : id ∈ seen
    · rw [if_pos hmem]
      exact ih acc seen hnd hsub
    · rw [if_neg hmem]
      have hnd' : (acc ++ [id]).Nodup := by
        rw [List.nodup_append]
        refine ⟨hnd, List.nodup_singleton id, ?_⟩
        intro a ha hb
        rw [List.mem_singleton] at hb
        subst hb
        exact hmem (hsub a ha)
      have hsub' : ∀ a ∈ acc ++ [id], a ∈ id :: seen := by
        intro a ha
        rcases List.mem_append.mp ha with h | h
        · exact List.mem_cons_of_mem id (hsub a h)
        · rw [List.mem_singleton] at h
          subst h
          exact List.mem_cons_self a seen
      obtain ⟨h1, h2⟩ := ih (acc ++ [id]) (id :: seen) hnd' hsub'
      refine ⟨h1, ?_⟩
      intro a ha
      rcases h2 a ha with h | h
      · rcases List.mem_append.mp h with h' | h'
        · exact .inl h'
        · rw [List.mem_singleton] at h'
          subst h'
          exact .inr hmem
      · exact .inr (fun hc => h (List.mem_cons_of_mem id hc))

theorem filterDuplicateChunks_nodup (storeChunks : List (List ChunkRef))
    (ids : List ExternalKey) :
    (filterDuplicateChunks storeChunks ids).Nodup := by
  unfold filterDuplicateChunks
  exact (filterDuplicateChunks_aux ids [] _ List.nodup_nil (by simp)).1

theorem filterDuplicateChunks_fresh (storeChunks : List (List ChunkRef))
    (ids : List ExternalKey) :
    ∀ a ∈ filterDuplicateChunks storeChunks ids,
      a ∉ storeChunks.flatten.map extKey := by
  intro a ha
  unfold filterDuplicateChunks at ha
  rcases (filterDuplicateChunks_aux ids [] _ List.nodup_nil (by simp)).2 a ha with
    h | h
  · simp at h
  · exact h

theorem appendAt_of_ge {groups : List (List ChunkRef)} {i : Nat} (c : ChunkRef)
    (h : groups.length ≤ i) : appendAt groups i c = groups := by
  unfold appendAt
  exact List.set_eq_of_length_le h

theorem appendAt_perm_of_lt {groups : List (List ChunkRef)} {i : Nat}
    (c : ChunkRef) (h : i < groups.length) :
    (appendAt groups i c).flatten.Perm (c :: groups.flatten) := by
  induction groups generalizing i with
  | nil => simp at h
  | cons g rest ih =>
    cases i with
    | zero =>
      simp only [appendAt, List.getD_cons_zero, List.set_cons_zero,
        List.flatten_cons]
      rw [List.append_assoc]
      exact List.perm_middle
    | succ i' =>
      have h2 := ih (i := i') (by simpa using h)
      unfold appendAt at h2 ⊢
      simp only [List.getD_cons_succ, List.set_cons_succ, List.flatten_cons]
      exact (h2.append_left g).trans List.perm_middle

theorem mergeStep_keys {getFetcher : Nat → Option Fetcher} {st : MergeState}
    {id : ExternalKey} {st1 : MergeState}
    (h : mergeStep getFetcher st id = .ok st1) :
    (st1.groups.flatten.map extKey).Perm (id :: st.groups.flatten.map extKey) ∨
      st1.groups = st.groups := by
  unfold mergeStep at h
  simp only at h
  cases hf : getFetcher (ParseExternalKey id).throughMs with
  | none => rw [hf] at h; exact absurd h (by simp)
  | some f =>
    rw [hf] at h
    simp only at h
    cases hl : List.lookup f st.idx with
    | some i =>
      rw [hl] at h
      simp only [Except.ok.injEq] at h
      subst h
      by_cases hi : i < st.groups.length
      · left
        have hp := appendAt_perm_of_lt (ParseExternalKey id) hi
        have := hp.map extKey
        simpa [extKey_parse] using this
      · right
        simp only
        exact appendAt_of_ge _ (Nat.le_of_not_lt hi)
    | none =>
      rw [hl] at h
      simp only [Except.ok.injEq] at h
      subst h
      left
      simp only [List.flatten_append, List.flatten_cons, List.flatten_nil,
        List.append_nil, List.map_append, List.map_cons, List.map_nil]
      rw [extKey_parse]
      exact List.perm_append_singleton id _

theorem mergeFold_nodup (getFetcher : Nat → Option Fetcher) :
    ∀ (ids : List ExternalKey) (st st' : MergeState),
      (st.groups.flatten.map extKey).Nodup →
      ids.Nodup →
      (∀ id ∈ ids, id ∉ st.groups.flatten.map extKey) →
      ids.foldlM (mergeStep getFetcher) st = .ok st' →
      (st'.groups.flatten.map extKey).Nodup := by
  intro ids
  induction ids with
  | nil =>
    intro st st' hnd _ _ h
    simp only [List.foldlM_nil] at h
    cases h
    exact hnd
  | cons id rest ih =>
    intro st st' hnd hids hfresh h
    rw [List.foldlM_cons] at h
    cases hstep : mergeStep getFetcher st id with
    | error e =>
      rw [hstep] at h
      simp [Bind.bind, Except.bind] at h
    | ok st1 =>
      rw [hstep] at h
      simp only [Bind.bind, Except.bind] at h
      have hkeys := mergeStep_keys hstep
      have hnd1 : (st1.groups.flatten.map extKey).Nodup := by
        rcases hkeys with hp | he
        · rw [hp.nodup_iff]
          exact List.Nodup.cons (hfresh id (by simp)) hnd
        · rw [he]
          exact hnd
      have hfresh1 : ∀ id' ∈ rest, id' ∉ st1.groups.flatten.map extKey := by
        intro id' hid' hc
        rcases hkeys with hp | he
        · have := hp.subset hc
          rcases List.mem_cons.mp this with rfl | hin
          · exact (List.nodup_cons.mp hids).1 hid'
          · exact hfresh id' (by simp [hid']) hin
        · rw [he] at hc
          exact hfresh id' (by simp [hid']) hc
      exact ih st1 st' hnd1 (List.nodup_cons.mp hids).2 hfresh1 h

/-- Successful `GetChunkRefs` results carry each external key at most
once, provided the store's own chunks do. -/
theorem getChunkRefs_nodup {getFetcher : Nat → Option Fetcher}
    {storeChunks : List (List ChunkRef)} {fetchers : List Fetcher}
    {ingesterChunks : List ExternalKey}
    {groups : List (List ChunkRef)} {fs : List Fetcher}
    (hnodup : (storeChunks.flatten.map extKey).Nodup)
    (hok : GetChunkRefs getFetcher storeChunks fetchers ingesterChunks =
      .ok (groups, fs)) :
    (groups.flatten.map extKey).Nodup := by
  unfold GetChunkRefs at hok
  by_cases hn : ingesterChunks.length = 0
  · rw [if_pos hn] at hok
    simp only [Except.ok.injEq, Prod.mk.injEq] at hok
    rw [← hok.1]
    exact hnodup
  · rw [if_neg hn] at hok
    unfold mergeIngesterAndStoreChunks at hok
    cases hfold : (filterDuplicateChunks storeChunks ingesterChunks).foldlM
        (mergeStep getFetcher) ⟨storeChunks, fetchers, initIdx fetchers⟩ with
    | error e =>
      rw [hfold] at hok
      exact absurd hok (by simp [Except.map])
    | ok st' =>
      rw [hfold] at hok
      simp only [Except.map, Except.ok.injEq, Prod.mk.injEq] at hok
      have := mergeFold_nodup getFetcher
        (filterDuplicateChunks storeChunks ingesterChunks)
        ⟨storeChunks, fetchers, initIdx fetchers⟩ st' hnodup
        (filterDuplicateChunks_nodup storeChunks ingesterChunks)
        (fun id hid => filterDuplicateChunks_fresh storeChunks ingesterChunks id hid)
        hfold
      rw [← hok.1]
      exact this

end AsyncStorage

/-! # The claims -/

namespace LokiBloom

/-! ## Concrete witness inputs -/

def wOpts : BlockOptions := ⟨⟨1, Codec.encSnappy, 0, 0⟩, 200, 200⟩

def w1a : SeriesWithBloom := ⟨⟨3, [⟨0, 5, 11⟩]⟩, mkBloom [[1, 2], [3]]⟩

def w1b : SeriesWithBloom := ⟨⟨7, [⟨4, 9, 22⟩]⟩, mkBloom [[9]]⟩

def w1S : List SeriesWithBloom := [w1a, w1b]

def w1toks (s : SeriesWithBloom) : List Token :=
  if s.series.fingerprint = 3 then [[1, 2], [3]] else [[9]]

def w2s (fp : Nat) : SeriesWithBloom := ⟨⟨fp, [⟨0, 1, fp⟩]⟩, ⟨[fp % 256]⟩⟩

def w2blocks : List (List SeriesWithBloom) :=
  [[w2s 1, w2s 2], [w2s 2, w2s 3, w2s 5]]

def w2truth : List Series :=
  [⟨1, [⟨0, 1, 1⟩]⟩, ⟨2, [⟨0, 1, 2⟩]⟩, ⟨3, [⟨0, 1, 3⟩]⟩]

def w6blocks : List (List SeriesWithBloom) := [[w2s 1], [w2s 1, w2s 2]]

def w6truthA : List Series := [⟨1, []⟩, ⟨2, []⟩]

def w6truthB : List Series := [⟨1, []⟩, ⟨9, []⟩]

def w7client : Client Nat := fun _ _ _ => .error 0

def w7ref : ChunkRefGW := ⟨1, 2, 0, 1000, 5⟩

def w8client : Client Nat := fun _ _ rs => .ok rs

def w8ref : ChunkRefGW := ⟨1, 2, 82800000, 93600000, 5⟩

/-! ## C1 -/

/-- C1: Build/iterate round-trip — for an input sequence with strictly
ascending fingerprints whose blooms were filled by adding the given
tokens, a successful build followed by a full querier iteration returns
exactly the input sequence, on both the memory and the directory
backends, and every added token tests positive in its series' bloom. -/
theorem c1_build_iterate_round_trip (opts : BlockOptions)
    (S : List SeriesWithBloom) (toks : SeriesWithBloom → List Token)
    (hasc : strictIncB (fpsOf S) = true)
    (hblooms : ∀ s ∈ S, s.bloom = mkBloom (toks s))
    (hok : (build opts S).isOk = true) :
    roundTripMem opts S = some S ∧ roundTripDir opts S = some S ∧
      ∀ s ∈ S, ∀ t ∈ toks s, s.bloom.test t = true := by
  refine ⟨roundTripMem_eq opts S hok, roundTripDir_eq opts S hok, ?_⟩
  intro s hs t ht
  rw [hblooms s hs]
  exact mkBloom_test ht

set_option maxRecDepth 10000 in
/-- Witness for C1 at a concrete two-series input. -/
theorem c1_build_iterate_round_trip_witness :
    strictIncB (fpsOf w1S) = true ∧
    (∀ s ∈ w1S, s.bloom = mkBloom (w1toks s)) ∧
    (build wOpts w1S).isOk = true ∧
    (roundTripMem wOpts w1S = some w1S ∧ roundTripDir wOpts w1S = some w1S ∧
      ∀ s ∈ w1S, ∀ t ∈ w1toks s, s.bloom.test t = true) :=
  ⟨by decide, by decide, by decide,
    c1_build_iterate_round_trip wOpts w1S w1toks (by decide) (by decide)
      (by decide)⟩

end LokiBloom

namespace LokiBloom

/-! ## C2 -/

/-- C2: Merge dedup and restriction — whenever a merge build over `k`
block streams against a store-truth sequence succeeds, iterating the
merged block yields exactly one entry per truth fingerprint, in truth
order: duplicates across blocks are collapsed and block-only
fingerprints absent from the truth are dropped. -/
theorem c2_merge_dedup_restriction {E : Type} (opts : BlockOptions)
    (blocks : List (List SeriesWithBloom)) (truth : List Series)
    (pop : Series → Except E Bloom)
    (hok : (mergeBuild opts blocks truth pop).isOk = true) :
    mergeBuildFps opts blocks truth pop =
      some (truth.map Series.fingerprint) := by
  unfold mergeBuildFps
  unfold mergeBuild at hok ⊢
  cases hms : mergeSeq pop truth (kmerge blocks) with
  | error e =>
    rw [hms] at hok
    simp [Except.isOk, Except.toBool] at hok
  | ok out =>
    rw [hms] at hok
    simp only at hok ⊢
    cases hbd : build opts out with
    | error e =>
      rw [hbd] at hok
      simp [Except.isOk, Except.toBool] at hok
    | ok r =>
      obtain ⟨d, ib, bb⟩ := r
      simp only
      obtain ⟨hs, hstrict, hz, hd, hib, hbb⟩ := build_ok_parts hbd
      subst hib
      subst hbb
      rw [parseBlockStreams_build hs hz]
      simp only
      unfold fpSeqFrom
      rw [querierFrom_built]
      simp only [Option.map_some']
      rw [mergeSeq_fps pop truth _ out hms]

set_option maxRecDepth 10000 in
/-- Witness for C2: two overlapping blocks, one block-only fingerprint,
a three-series truth. -/
theorem c2_merge_dedup_restriction_witness :
    (mergeBuild wOpts w2blocks w2truth (fun _ => Except.error 0)).isOk = true ∧
    mergeBuildFps wOpts w2blocks w2truth (fun _ => Except.error 0) =
      some (w2truth.map Series.fingerprint) :=
  ⟨by decide,
    c2_merge_dedup_restriction wOpts w2blocks w2truth (fun _ => Except.error 0)
      (by decide)⟩

/-! ## C3 -/

set_option maxRecDepth 10000 in
/-- C3 counterexample: two builds that differ only in the single series
fingerprint both succeed yet return equal digests — the 32-bit page
checksum collides on the two serialized index pages, so the digest, a
CRC over the page checksums, coincides.  This refutes the claimed
sensitivity of the digest to any fingerprint change. -/
theorem c3_digest_collision :
    cexFp1 ≠ cexFp2 ∧
    (build cexOpts (cexInput cexFp1)).isOk = true ∧
    (build cexOpts (cexInput cexFp2)).isOk = true ∧
    digestOf cexOpts (cexInput cexFp1) = digestOf cexOpts (cexInput cexFp2) := by
  decide

/-- C3 (amended): digest determinism — two builds with equal input
sequences and equal options return equal digests, including across the
memory-backed and directory-backed backends.  The sensitivity half of
the original claim is refuted by the collision counterexample. -/
theorem c3_digest_determinism (opts1 opts2 : BlockOptions)
    (S1 S2 : List SeriesWithBloom) (ho : opts1 = opts2) (hS : S1 = S2) :
    (buildMem opts1 S1).map (fun r => r.1) =
      (buildDir opts2 S2).map (fun r => r.1) := by
  subst ho
  subst hS
  unfold buildMem buildDir
  cases build opts1 S1 with
  | error e => rfl
  | ok r => rfl

/-- Witness for C3 determinism at a concrete input. -/
theorem c3_digest_determinism_witness :
    wOpts = wOpts ∧ w1S = w1S ∧
    (buildMem wOpts w1S).map (fun r => r.1) =
      (buildDir wOpts w1S).map (fun r => r.1) :=
  ⟨rfl, rfl, c3_digest_determinism wOpts wOpts w1S w1S rfl rfl⟩

/-! ## C4 -/

/-- C4: Seek correctness — for a built block holding an
ascending-fingerprint sequence `S` and any target `f`, `Seek(f)`
followed by iteration yields exactly the ordered subsequence of `S`
with fingerprint at least `f`; when every fingerprint lies below `f`
the querier is exhausted and yields the empty sequence without error. -/
theorem c4_seek_ge_filter (opts : BlockOptions) (S : List SeriesWithBloom)
    (f : Nat)
    (hasc : strictIncB (fpsOf S) = true)
    (hok : (build opts S).isOk = true) :
    seekIterMem opts S f =
      some (S.filter (fun s => decide (f ≤ s.series.fingerprint))) ∧
    ((∀ s ∈ S, s.series.fingerprint < f) → seekIterMem opts S f = some []) := by
  have hmain := seekIterMem_eq opts S f hasc hok
  refine ⟨hmain, ?_⟩
  intro hall
  rw [hmain]
  have hnil : S.filter (fun s => decide (f ≤ s.series.fingerprint)) = [] := by
    rw [List.filter_eq_nil_iff]
    intro a ha
    rw [decide_eq_true_eq]
    exact Nat.not_le.mpr (hall a ha)
  rw [hnil]

set_option maxRecDepth 10000 in
/-- Witness for C4: a mid-range target and a past-the-end target. -/
theorem c4_seek_ge_filter_witness :
    strictIncB (fpsOf w1S) = true ∧ (build wOpts w1S).isOk = true ∧
    seekIterMem wOpts w1S 5 =
      some (w1S.filter (fun s => decide (5 ≤ s.series.fingerprint))) ∧
    (∀ s ∈ w1S, s.series.fingerprint < 100) ∧
    seekIterMem wOpts w1S 100 = some [] :=
  ⟨by decide, by decide,
    (c4_seek_ge_filter wOpts w1S 5 (by decide) (by decide)).1,
    by decide,
    (c4_seek_ge_filter wOpts w1S 100 (by decide) (by decide)).2 (by decide)⟩

end LokiBloom

namespace LokiBloom

/-! ## C6 -/

/-- C6: Populate callback scope and failure — in a merge build over
ascending blocks and an ascending truth, the populate callback is
consulted only for truth series absent from every block: when every
truth fingerprint occurs in some block the merge walk succeeds even
under an always-failing callback, and when some truth fingerprint is
missing from every block the build aborts with the callback's error. -/
theorem c6_populate_scope {E : Type} (opts : BlockOptions)
    (blocks : List (List SeriesWithBloom)) (truth : List Series) (e : E)
    (hblocks : ∀ l ∈ blocks,
      strictIncB (l.map (fun s => s.series.fingerprint)) = true)
    (htruth : strictIncB (truth.map Series.fingerprint) = true) :
    ((∀ t ∈ truth, ∃ l ∈ blocks, ∃ x ∈ l,
        x.series.fingerprint = t.fingerprint) →
      (mergeSeq (fun _ => Except.error e) truth (kmerge blocks)).isOk = true) ∧
    ((∃ t ∈ truth, ∀ l ∈ blocks, ∀ x ∈ l,
        x.series.fingerprint ≠ t.fingerprint) →
      mergeBuild opts blocks truth (fun _ => Except.error e) =
        .error (.populate e)) := by
  have hpwT : truth.Pairwise (fun a b => a.fingerprint < b.fingerprint) :=
    List.pairwise_map.mp (strictIncB_pairwise _ htruth)
  have hpwH : (kmerge blocks).Pairwise
      (fun a b => a.series.fingerprint ≤ b.series.fingerprint) :=
    kmerge_sorted blocks (fun l hl =>
      (List.pairwise_map.mp (strictIncB_pairwise _ (hblocks l hl))).imp
        (fun h => le_of_lt h))
  have hperm := kmerge_perm blocks
  constructor
  · intro hcov
    refine mergeSeq_ok_of_covered _ truth (kmerge blocks) hpwT hpwH ?_
    intro t ht
    obtain ⟨l, hl, x, hx, hfp⟩ := hcov t ht
    exact ⟨x, hperm.mem_iff.mpr (List.mem_flatten.mpr ⟨l, hl, hx⟩), hfp⟩
  · intro hunc
    obtain ⟨t, ht, hmiss⟩ := hunc
    unfold mergeBuild
    rw [mergeSeq_error_uncovered e truth (kmerge blocks) hpwT hpwH
      ⟨t, ht, fun x hx => ?_⟩]
    obtain ⟨l, hl, hxl⟩ := List.mem_flatten.mp (hperm.mem_iff.mp hx)
    exact hmiss l hl x hxl

set_option maxRecDepth 10000 in
/-- Witness for C6: a covered truth succeeds under the failing callback,
an uncovered truth aborts with the populate error. -/
theorem c6_populate_scope_witness :
    (∀ l ∈ w6blocks,
      strictIncB (l.map (fun s => s.series.fingerprint)) = true) ∧
    strictIncB (w6truthA.map Series.fingerprint) = true ∧
    strictIncB (w6truthB.map Series.fingerprint) = true ∧
    (mergeSeq (fun _ => Except.error 0) w6truthA (kmerge w6blocks)).isOk =
      true ∧
    mergeBuild wOpts w6blocks w6truthB (fun _ => Except.error 0) =
      .error (.populate 0) :=
  ⟨by decide, by decide, by decide,
    (c6_populate_scope wOpts w6blocks w6truthA 0 (by decide) (by decide)).1
      (by decide),
    (c6_populate_scope wOpts w6blocks w6truthB 0 (by decide) (by decide)).2
      (by decide)⟩

/-! ## C7 -/

/-- C7: Filter-client short-circuit — when the chunk-ref list is empty
or the plan has no line filters, `FilterChunkRefs` returns the refs
unchanged with zero client invocations and no error. -/
theorem c7_short_circuit {E : Type} (client : Client E) (f t : Nat)
    (refs : List ChunkRefGW) (plan : QueryPlan)
    (h : refs = [] ∨ plan.lineFilters = []) :
    FilterChunkRefs client f t refs plan = .ok (refs, 0) := by
  unfold FilterChunkRefs
  rcases h with h | h
  · subst h
    rfl
  · rw [if_pos]
    rw [h]
    simp

/-- Witness for C7: a non-empty ref list with an empty plan. -/
theorem c7_short_circuit_witness :
    ([w7ref] = ([] : List ChunkRefGW) ∨ (QueryPlan.mk []).lineFilters = []) ∧
    FilterChunkRefs w7client 0 93600000 [w7ref] ⟨[]⟩ = .ok ([w7ref], 0) :=
  ⟨Or.inr rfl, c7_short_circuit w7client 0 93600000 [w7ref] ⟨[]⟩ (Or.inr rfl)⟩

/-! ## C8 -/

/-- C8: Per-day partitioning — with a non-empty ref list and at least
one line filter, a successful `FilterChunkRefs` call invoked the client
exactly once per UTC day overlapping `[from, through]`, that is
`dayOf through - dayOf from + 1` times. -/
theorem c8_per_day_calls {E : Type} (client : Client E) (f t : Nat)
    (refs : List ChunkRefGW) (plan : QueryPlan)
    (out : List ChunkRefGW) (n : Nat)
    (h1 : refs ≠ []) (h2 : plan.lineFilters ≠ [])
    (hok : FilterChunkRefs client f t refs plan = .ok (out, n)) :
    n = (daysOverlapping f t).length ∧
      (daysOverlapping f t).length = dayOf t - dayOf f + 1 := by
  unfold FilterChunkRefs at hok
  rw [if_neg] at hok
  · have hc := filterFold_count client refs (daysOverlapping f t) [] 0 out n hok
    refine ⟨by rw [hc, Nat.zero_add], ?_⟩
    unfold daysOverlapping
    exact List.length_range' _ _ _
  · simp only [Bool.or_eq_true, List.isEmpty_iff]
    rintro (h | h)
    · exact h1 h
    · exact h2 h

instance exceptDecEq {e a : Type} [DecidableEq e] [DecidableEq a] :
    DecidableEq (Except e a) := fun x y =>
  match x, y with
  | .error e1, .error e2 =>
    if h : e1 = e2 then .isTrue (h ▸ rfl)
    else .isFalse (fun hc => h (Except.error.inj hc))
  | .error _, .ok _ => .isFalse (fun hc => Except.noConfusion hc)
  | .ok _, .error _ => .isFalse (fun hc => Except.noConfusion hc)
  | .ok v1, .ok v2 =>
    if h : v1 = v2 then .isTrue (h ▸ rfl)
    else .isFalse (fun hc => h (Except.ok.inj hc))

/-- Witness for C8 at the spec's example interval, 22:00 of UTC day 0
to 02:00 of UTC day 1: exactly two client calls. -/
theorem c8_per_day_calls_witness :
    ([w8ref] ≠ ([] : List ChunkRefGW)) ∧
    (QueryPlan.mk [[1]]).lineFilters ≠ [] ∧
    FilterChunkRefs w8client 82800000 93600000 [w8ref] ⟨[[1]]⟩ =
      .ok ([w8ref, w8ref], 2) ∧
    (2 = (daysOverlapping 82800000 93600000).length ∧
      (daysOverlapping 82800000 93600000).length =
        dayOf 93600000 - dayOf 82800000 + 1) :=
  ⟨by decide, by decide, by decide,
    c8_per_day_calls w8client 82800000 93600000 [w8ref] ⟨[[1]]⟩
      [w8ref, w8ref] 2 (by decide) (by decide) (by decide)⟩

/-! ## C9 -/

/-- C9: Reset reproducibility — for a built block, a full traversal and
a second traversal taken after `Seek(0)` yield identical fingerprint
sequences, namely the input fingerprints in order. -/
theorem c9_reset_reproducible (opts : BlockOptions)
    (S : List SeriesWithBloom)
    (hasc : strictIncB (fpsOf S) = true)
    (hok : (build opts S).isOk = true) :
    secondPassFps opts S = firstPassFps opts S ∧
      firstPassFps opts S = some (S.map (fun s => s.series.fingerprint)) := by
  have hb := build_isOk_parts hok
  obtain ⟨hs, hstrict, hz, -, -, -⟩ := build_ok_parts hb
  unfold firstPassFps secondPassFps buildMem
  rw [hb]
  simp only [Except.map]
  rw [show memRead (NewMemoryBlockWriter (indexBytesOf opts S)
      (bloomBytesOf opts S)) =
    some (indexBytesOf opts S, bloomBytesOf opts S) from rfl]
  simp only
  rw [parseBlockStreams_build hs hz]
  simp only
  unfold fpSeqFrom
  rw [querierFrom_built, seek_filter opts S 0 hasc]
  have hfilter : S.filter (fun s => decide (0 ≤ s.series.fingerprint)) = S :=
    List.filter_eq_self.mpr (fun a _ => decide_eq_true (Nat.zero_le _))
  rw [hfilter]
  exact ⟨rfl, rfl⟩

set_option maxRecDepth 10000 in
/-- Witness for C9 at a concrete two-series block. -/
theorem c9_reset_reproducible_witness :
    strictIncB (fpsOf w1S) = true ∧ (build wOpts w1S).isOk = true ∧
    (secondPassFps wOpts w1S = firstPassFps wOpts w1S ∧
      firstPassFps wOpts w1S =
        some (w1S.map (fun s => s.series.fingerprint))) :=
  ⟨by decide, by decide,
    c9_reset_reproducible wOpts w1S (by decide) (by decide)⟩

end LokiBloom

namespace AsyncStorage

/-! ## C10 -/

def w10c1 : ChunkRef := ⟨1, 10, 0, 100, 7⟩

def w10c2 : ChunkRef := ⟨1, 20, 0, 150, 8⟩

def w10store : List (List ChunkRef) := [[w10c1]]

def w10ing : List ExternalKey := [extKey w10c2, extKey w10c1, extKey w10c2]

def w10get (t : Nat) : Option Fetcher := some 7

/-- C10: AsyncStore chunk dedup — when `GetChunkRefs` succeeds and the
store's own chunk groups carry no duplicate external key, the merged
result carries each external key at most once (ingester ids already in
the store, and repeated ingester ids, are dropped by
`filterDuplicateChunks`); with zero ingester chunk ids the store's
groups and fetchers are returned unchanged. -/
theorem c10_async_store_dedup (getFetcher : Nat → Option Fetcher)
    (storeChunks : List (List ChunkRef)) (fetchers : List Fetcher)
    (ingesterChunks : List ExternalKey)
    (groups : List (List ChunkRef)) (fs : List Fetcher)
    (hnodup : (storeChunks.flatten.map extKey).Nodup)
    (hok : GetChunkRefs getFetcher storeChunks fetchers ingesterChunks =
      .ok (groups, fs)) :
    (groups.flatten.map extKey).Nodup ∧
      (ingesterChunks = [] → groups = storeChunks ∧ fs = fetchers) := by
  refine ⟨getChunkRefs_nodup hnodup hok, ?_⟩
  intro hnil
  subst hnil
  have hred : GetChunkRefs getFetcher storeChunks fetchers [] =
      .ok (storeChunks, fetchers) := rfl
  rw [hred] at hok
  simp only [Except.ok.injEq, Prod.mk.injEq] at hok
  exact ⟨hok.1.symm, hok.2.symm⟩

/-- Witness for C10: one stored chunk, an ingester list holding one new
id, one store-duplicate id and one repeat; plus the empty-ingester
branch. -/
theorem c10_async_store_dedup_witness :
    (w10store.flatten.map extKey).Nodup ∧
    GetChunkRefs w10get w10store [7] w10ing = .ok ([[w10c1, w10c2]], [7]) ∧
    ((([[w10c1, w10c2]] : List (List ChunkRef)).flatten.map extKey).Nodup ∧
      (w10ing = [] → [[w10c1, w10c2]] = w10store ∧
        ([7] : List Fetcher) = [7])) ∧
    GetChunkRefs w10get w10store [7] [] = .ok (w10store, [7]) ∧
    (w10store = w10store ∧ ([7] : List Fetcher) = [7]) :=
  ⟨by decide, by decide,
    c10_async_store_dedup w10get w10store [7] w10ing [[w10c1, w10c2]] [7]
      (by decide) (by decide),
    by decide,
    (c10_async_store_dedup w10get w10store [7] [] w10store [7]
      (by decide) (by decide)).2 rfl⟩

end AsyncStorage
